import Mathlib

/-!
Shallow embedding of the Inventory Resolution Engine of the
inventory-lookup repository (src/App.jsx).

The source file concatenates two near-duplicate application variants:

* variant A (lines 1-876): lookup over a per-item request table
  (doSearch, lines 513-525) and a coverage matcher with per-item
  thresholds and summed per-branch aggregates (doCoverage,
  lines 528-563);
* variant B (lines 877-1689): lookup over a parsed code query
  (doSearch, lines 1267-1275) and a coverage matcher with a single
  global minimum and a strict per-row comparison (doCoverage,
  lines 1278-1309).

Modelling conventions:

* JavaScript numbers are modelled as rationals (ℚ); quantities parsed
  from decimal strings are exact rationals, and aggregation is exact
  addition (IEEE-754 rounding is not modelled).
* JavaScript strings are Lean strings; toLowerCase / toUpperCase are
  modelled on the ASCII range (non-ASCII characters are kept unchanged;
  every alias pattern of the normalizer is already lower case and no
  claim depends on non-ASCII case mapping).  localeCompare is modelled
  as code-point lexicographic comparison.
* JavaScript objects used as dictionaries are modelled as association
  lists in key-insertion order: assignment to an existing key updates
  the entry in place, assignment to a fresh key appends.
* A raw spreadsheet record is an ordered list of key/cell pairs, the
  order being the Object.keys order of the source; cells are modelled
  as strings (the source applies String(...) to every cell it reads).
-/

namespace Inventory

/-- ASCII lower-casing of one character, as JavaScript toLowerCase acts
on the ASCII range. -/
def jsCharToLower (c : Char) : Char :=
  if 'A' ≤ c ∧ c ≤ 'Z' then Char.ofNat (c.toNat + 32) else c

/-- ASCII upper-casing of one character, as JavaScript toUpperCase acts
on the ASCII range. -/
def jsCharToUpper (c : Char) : Char :=
  if 'a' ≤ c ∧ c ≤ 'z' then Char.ofNat (c.toNat - 32) else c

/-- Model of String.prototype.toLowerCase. -/
def jsToLower (s : String) : String := String.mk (s.data.map jsCharToLower)

/-- Model of String.prototype.toUpperCase. -/
def jsToUpper (s : String) : String := String.mk (s.data.map jsCharToUpper)

/-- The white-space characters recognized by the model (the common
JavaScript white space: space, tab, newline, carriage return). -/
def jsWhitespace (c : Char) : Bool :=
  c == ' ' || c == '\t' || c == '\n' || c == '\r'

/-- Trimming on the character list: drop white space from both ends,
as String.prototype.trim does. -/
def jsTrimList (l : List Char) : List Char :=
  ((l.dropWhile jsWhitespace).reverse.dropWhile jsWhitespace).reverse

/-- Model of String.prototype.trim. -/
def jsTrim (s : String) : String := String.mk (jsTrimList s.data)

/-- Model of String.prototype.includes on character lists: some suffix
of the haystack starts with the needle. -/
def listIncludes (hay needle : List Char) : Bool :=
  (List.range (hay.length + 1)).any (fun i => needle.isPrefixOf (hay.drop i))

/-- Model of String.prototype.includes. -/
def strIncludes (hay needle : String) : Bool := listIncludes hay.data needle.data

/-- One raw spreadsheet record: key/cell pairs in Object.keys order. -/
abbrev RawRecord := List (String × String)

/-- One canonical record, the shape produced by normalizeRows
(App.jsx lines 91-99). -/
structure Row where
  maHang : String
  tenHang : String
  chiNhanh : String
  tinhThanh : String
  maKho : String
  dvt : String
  cuoiKy : String
deriving Repr, DecidableEq

/-- Alias substrings for the item-code column (App.jsx line 92). -/
def maHangAliases : List String :=
  ["mã hàng", "ma hang", "mahang", "item code", "itemcode", "code", "sku"]

/-- Alias substrings for the item-name column (App.jsx line 93). -/
def tenHangAliases : List String :=
  ["tên hàng", "ten hang", "tenhang", "product name", "name", "product"]

/-- Alias substrings for the branch column (App.jsx line 94). -/
def chiNhanhAliases : List String :=
  ["chi nhánh", "chi nhanh", "chinhanh", "branch"]

/-- Alias substrings for the province column (App.jsx line 95). -/
def tinhThanhAliases : List String :=
  ["tỉnh thành", "tinh thanh", "tỉnh", "tinh", "province", "city"]

/-- Alias substrings for the warehouse column (App.jsx line 96). -/
def maKhoAliases : List String :=
  ["mã kho", "ma kho", "makho", "warehouse"]

/-- Alias substrings for the unit column (App.jsx line 97). -/
def dvtAliases : List String :=
  ["đvt", "dvt", "unit", "đơn vị", "don vi"]

/-- Alias substrings for the quantity column (App.jsx line 98). -/
def cuoiKyAliases : List String :=
  ["cuối kỳ", "cuoi ky", "cuoiky", "tồn", "ton kho", "quantity", "qty", "số lượng"]

/-- Whether a record key matches one of the alias patterns:
k.toLowerCase().includes(p.toLowerCase()) for some pattern p
(App.jsx line 90). -/
def keyMatches (ps : List String) (k : String) : Bool :=
  ps.any (fun p => strIncludes (jsToLower k) (jsToLower p))

/-- The get helper of normalizeRows (App.jsx line 90): the trimmed cell
of the first key matching an alias, or the empty string. -/
def getField (r : RawRecord) (ps : List String) : String :=
  match r.find? (fun kv => keyMatches ps kv.1) with
  | some kv => jsTrim kv.2
  | none => ""

/-- Normalization of one raw record (App.jsx lines 88-100). -/
def normRow (r : RawRecord) : Row :=
  { maHang := getField r maHangAliases
    tenHang := getField r tenHangAliases
    chiNhanh := getField r chiNhanhAliases
    tinhThanh := getField r tinhThanhAliases
    maKho := getField r maKhoAliases
    dvt := getField r dvtAliases
    cuoiKy := getField r cuoiKyAliases }

/-- normalizeRows (App.jsx lines 87-101): elementwise normalization of
the raw record sequence. -/
def normalizeRows (rows : List RawRecord) : List Row := rows.map normRow

/-- The characters kept by the replace(/[^0-9.-]/g,"") step of parseQty. -/
def isNumChar (c : Char) : Bool := c.isDigit || c == '.' || c == '-'

/-- The replace(/[^0-9.-]/g,"") step of parseQty: every character that
is not a digit, a dot or a minus sign is removed. -/
def jsReplaceNonNum : List Char → List Char
  | [] => []
  | c :: t => if isNumChar c then c :: jsReplaceNonNum t else jsReplaceNonNum t

/-- Decimal value of a digit run (most significant digit first). -/
def digitsToNat (l : List Char) : Nat :=
  l.foldl (fun a c => 10 * a + (c.toNat - 48)) 0

/-- Model of JavaScript parseFloat restricted to inputs made of digits,
dots and minus signs (the only characters surviving the strip step):
an optional leading minus sign, then the longest prefix of the shape
digits, digits.digits, digits. or .digits; none models NaN.  (No
exponent marker, sign or white space can survive the strip, so the
general parseFloat grammar degenerates to this case.) -/
def jsParseFloat (l : List Char) : Option ℚ :=
  let neg : Bool := match l with
    | '-' :: _ => true
    | _ => false
  let rest : List Char := match l with
    | '-' :: t => t
    | t => t
  let intPart := rest.takeWhile Char.isDigit
  let rest2 := rest.dropWhile Char.isDigit
  match rest2 with
  | '.' :: t =>
      let fracPart := t.takeWhile Char.isDigit
      if intPart.isEmpty && fracPart.isEmpty then none
      else
        let n : Int := digitsToNat intPart * 10 ^ fracPart.length + digitsToNat fracPart
        some (mkRat (if neg then -n else n) (10 ^ fracPart.length))
  | _ =>
      if intPart.isEmpty then none
      else
        let n : Int := digitsToNat intPart
        some (mkRat (if neg then -n else n) 1)

/-- parseQty (App.jsx line 102): strip every character that is not a
digit, a dot or a minus sign, parse the remainder as a floating-point
number, and yield 0 when the result is not a number. -/
def parseQty (v : String) : ℚ :=
  match jsParseFloat (jsReplaceNonNum v.data) with
  | none => 0
  | some q => q

/-- The separator class of parseCodes (App.jsx line 105): newline,
comma, semicolon, full-width comma, ideographic comma, white space. -/
def isSepChar (c : Char) : Bool :=
  c == '\n' || c == ',' || c == ';' || c == '，' || c == '、' || jsWhitespace c

/-- Splitting a character list at separator characters; every boundary
produces a piece, so runs of separators produce empty pieces, exactly
the pieces the filter(Boolean) step of parseCodes discards. -/
def splitSepAux (cur : List Char) : List Char → List (List Char)
  | [] => [cur.reverse]
  | c :: t =>
      if isSepChar c then cur.reverse :: splitSepAux [] t
      else splitSepAux (c :: cur) t

/-- Set-based deduplication keeping first occurrences, as the spread of
a JavaScript Set preserves insertion order. -/
def jsSetDedupAux (seen : List String) : List String → List String
  | [] => []
  | x :: t =>
      if seen.contains x then jsSetDedupAux seen t
      else x :: jsSetDedupAux (x :: seen) t

/-- parseCodes (App.jsx line 105): split on separators, trim and
upper-case each piece, drop empty pieces, deduplicate keeping first
occurrences. -/
def parseCodes (t : String) : List String :=
  jsSetDedupAux []
    (((splitSepAux [] t.data).map
        (fun cs => jsToUpper (jsTrim (String.mk cs)))).filter
      (fun s => !(s == "")))

/-! ## The row filter shared by lookup and coverage

filteredRows (App.jsx lines 425-427): exact equality on province and
branch, an empty filter string meaning no constraint (the empty string
is falsy in JavaScript). -/

/-- Whether a record passes the province/branch filter
(App.jsx lines 425-427). -/
def passesFilter (fp fb : String) (r : Row) : Bool :=
  (fp == "" || r.tinhThanh == fp) && (fb == "" || r.chiNhanh == fb)

/-- filteredRows (App.jsx lines 425-427). -/
def filteredRows (activeRows : List Row) (fp fb : String) : List Row :=
  activeRows.filter (passesFilter fp fb)

/-! ## Variant A lookup (doSearch, App.jsx lines 513-525) -/

/-- One entry of the lookup / coverage request tables of variant A.
needQty mirrors the UI state: the input control stores either the empty
string (none) or an already-converted number (some q), see App.jsx
line 301. -/
structure ReqItem where
  maHang : String
  tenHang : String
  dvt : String
  needQty : Option ℚ
deriving Repr, DecidableEq

/-- One value of the result map of variant A doSearch
(App.jsx lines 517-522). -/
structure LookupEntry where
  rows : List Row
  needQty : Option ℚ
  tenHang : String
  dvt : String
deriving Repr, DecidableEq

/-- Assignment m[k] = v on a JavaScript object modelled as an
association list: overwrite in place when the key is present, append
otherwise. -/
def objInsert {β : Type} (m : List (String × β)) (k : String) (v : β) :
    List (String × β) :=
  if (m.find? (fun kv => kv.1 == k)).isSome then
    m.map (fun kv => if kv.1 == k then (k, v) else kv)
  else m ++ [(k, v)]

/-- The per-item record subset of variant A doSearch (App.jsx
line 518): filteredRows.filter of records whose uppercased maHang equals it.maHang. -/
def lookupRowsA (activeRows : List Row) (fp fb : String) (code : String) :
    List Row :=
  (filteredRows activeRows fp fb).filter (fun r => jsToUpper r.maHang == code)

/-- The result-map value built for one request item by variant A
doSearch (App.jsx lines 517-522). -/
def lookupEntryA (activeRows : List Row) (fp fb : String) (it : ReqItem) :
    LookupEntry :=
  { rows := lookupRowsA activeRows fp fb it.maHang
    needQty := it.needQty
    tenHang := it.tenHang
    dvt := it.dvt }

/-- The result map built by variant A doSearch (App.jsx lines 515-523). -/
def lookupMapA (activeRows : List Row) (items : List ReqItem) (fp fb : String) :
    List (String × LookupEntry) :=
  items.foldl
    (fun m it => objInsert m it.maHang (lookupEntryA activeRows fp fb it)) []

/-- The record subset the specification promises for one requested
code: the records whose normalized (trimmed, upper-cased) item code
equals the normalized requested code, the filter applied as exact
equality on province and branch (spec sections 4.3 and 8). -/
def lookupRecordsSpec (ds : List Row) (fp fb : String) (code : String) :
    List Row :=
  ds.filter (fun r =>
    ((fp == "" || r.tinhThanh == fp) && (fb == "" || r.chiNhanh == fb)) &&
    (jsToUpper (jsTrim r.maHang) == jsToUpper (jsTrim code)))

/-- The value published by variant A doSearch. -/
structure SearchResultA where
  items : List ReqItem
  map : List (String × LookupEntry)
deriving Repr, DecidableEq

/-- Variant A doSearch (App.jsx lines 513-525): a no-op (none) when the
dataset or the item list is empty, otherwise the result map. -/
def doSearchA (activeRows : List Row) (items : List ReqItem) (fp fb : String) :
    Option SearchResultA :=
  if activeRows.isEmpty || items.isEmpty then none
  else some { items := items, map := lookupMapA activeRows items fp fb }

/-- The grand-total row of the lookup result table (App.jsx line 388
and line 1487): the fold of s + parseQty(r.cuoiKy) over the rows starting from 0. -/
def displayedTotal (rows : List Row) : ℚ :=
  rows.foldl (fun s r => s + parseQty r.cuoiKy) 0

/-! ## Variant A coverage (doCoverage, App.jsx lines 528-563) -/

/-- Looking a key up in a JavaScript object modelled as an association
list, with the or-zero default the source applies (m[k]||0). -/
def lookupQ (m : List (String × ℚ)) (k : String) : ℚ :=
  match m.find? (fun kv => kv.1 == k) with
  | some kv => kv.2
  | none => 0

/-- qtyMap[code] = (qtyMap[code]||0) + qty (App.jsx line 542). -/
def addQty (m : List (String × ℚ)) (code : String) (q : ℚ) :
    List (String × ℚ) :=
  objInsert m code (lookupQ m code + q)

/-- One branch entry of the branchMap accumulator (App.jsx line 538):
the branch fields of the first record seen for the key together with
the per-code quantity map. -/
structure BranchAgg where
  chiNhanh : String
  tinhThanh : String
  qtyMap : List (String × ℚ)
deriving Repr, DecidableEq

/-- The grouping key r.chiNhanh+"||"+r.tinhThanh (App.jsx line 537). -/
def rowKey (r : Row) : String := r.chiNhanh ++ "||" ++ r.tinhThanh

/-- The grouping key of a stored branch entry. -/
def branchKey (b : BranchAgg) : String := b.chiNhanh ++ "||" ++ b.tinhThanh

/-- The fresh branch entry created for a record (App.jsx line 538):
it carries the branch fields of the first record seen for the key and
an empty quantity map. -/
def newBranch (r : Row) : BranchAgg :=
  { chiNhanh := r.chiNhanh, tinhThanh := r.tinhThanh, qtyMap := [] }

/-- Creation of the branch entry for a record when its grouping key is
absent (App.jsx lines 537-538). -/
def ensureBranch (acc : List BranchAgg) (r : Row) : List BranchAgg :=
  if acc.any (fun b => branchKey b == rowKey r) then acc
  else acc ++ [newBranch r]

/-- The in-place update of the branch entry keyed by the record
(App.jsx line 542): add the parsed quantity to the per-code total of
the uppercased record code. -/
def updBranch (r : Row) (b : BranchAgg) : BranchAgg :=
  if branchKey b == rowKey r then
    { b with qtyMap := addQty b.qtyMap (jsToUpper r.maHang) (parseQty r.cuoiKy) }
  else b

/-- One step of the branchMap accumulation (App.jsx lines 536-544):
create the entry for the key of the record when absent, then, when the
uppercased record code is demanded, add its parsed quantity to the
per-code total of the entry. -/
def coverStep (codes : List String) (acc : List BranchAgg) (r : Row) :
    List BranchAgg :=
  if codes.contains (jsToUpper r.maHang) then
    (ensureBranch acc r).map (updBranch r)
  else ensureBranch acc r

/-- The branchMap of variant A doCoverage in insertion order
(App.jsx lines 535-544). -/
def branchMapA (activeRows : List Row) (codes : List String) : List BranchAgg :=
  activeRows.foldl (coverStep codes) []

/-- The per-item threshold map (App.jsx lines 531-532):
thresholds[it.maHang] is assigned per item, so the last assignment for a
code wins, an empty input meaning 0; an absent code falls back to 0
through the ||0 of line 554. -/
def thresholdOf (items : List ReqItem) (c : String) : ℚ :=
  match items.reverse.find? (fun it => it.maHang == c) with
  | some it => match it.needQty with
    | some q => q
    | none => 0
  | none => 0

/-- One element of codeStatus (App.jsx lines 551-557). -/
structure CodeStatus where
  code : String
  qty : ℚ
  needed : ℚ
  ok : Bool
  info : Option ReqItem
deriving Repr, DecidableEq

/-- One ranked coverage row of variant A (App.jsx lines 550-559): the
spread of the branch entry plus codeStatus, count and hasAll. -/
structure CovRowA where
  chiNhanh : String
  tinhThanh : String
  qtyMap : List (String × ℚ)
  codeStatus : List CodeStatus
  count : Nat
  hasAll : Bool
deriving Repr, DecidableEq

/-- The codeStatus list of one branch (App.jsx lines 551-557); the ||0
defaults of lines 553-555 are the 0 fallbacks of lookupQ and
thresholdOf. -/
def codeStatusOf (codes : List String) (items : List ReqItem)
    (b : BranchAgg) : List CodeStatus :=
  codes.map (fun c =>
    { code := c
      qty := lookupQ b.qtyMap c
      needed := thresholdOf items c
      ok := decide (lookupQ b.qtyMap c ≥ thresholdOf items c)
      info := items.find? (fun it => it.maHang == c) })

/-- Decoration of one filtered branch entry (App.jsx lines 550-559). -/
def decorateA (codes : List String) (items : List ReqItem)
    (b : BranchAgg) : CovRowA :=
  let cs := codeStatusOf codes items b
  let count := (cs.filter (fun s => s.ok)).length
  { chiNhanh := b.chiNhanh
    tinhThanh := b.tinhThanh
    qtyMap := b.qtyMap
    codeStatus := cs
    count := count
    hasAll := count == codes.length }

/-- Code-point lexicographic comparison of character lists, the model
of: a.localeCompare(b) is at most 0. -/
def lexLe : List Char → List Char → Bool
  | [], _ => true
  | _ :: _, [] => false
  | a :: as, b :: bs => if a = b then lexLe as bs else decide (a.toNat < b.toNat)

/-- The sort comparator of variant A doCoverage (App.jsx line 560),
b.count-a.count || a.chiNhanh.localeCompare(b.chiNhanh), as the
may-come-before relation stating the comparator is at most 0. -/
def covLeA (a b : CovRowA) : Bool :=
  b.count < a.count || (b.count == a.count && lexLe a.chiNhanh.data b.chiNhanh.data)

/-- The value published by variant A doCoverage (App.jsx line 562). -/
structure CovResultA where
  codes : List String
  rows : List CovRowA
  items : List ReqItem
deriving Repr, DecidableEq

/-- The branch-level filter of doCoverage (App.jsx lines 546-548 and
1295-1298): exact equality on province and branch, an empty filter
string meaning no constraint. -/
def branchPass (fp fb chiNhanh tinhThanh : String) : Bool :=
  (fp == "" || tinhThanh == fp) && (fb == "" || chiNhanh == fb)

/-- The ranked coverage rows of variant A (App.jsx lines 546-560):
filter the accumulated branches, decorate each with codeStatus, count
and hasAll, sort by the comparator. -/
def coverageRowsA (activeRows : List Row) (coverItems : List ReqItem)
    (fp fb : String) : List CovRowA :=
  (((branchMapA activeRows (coverItems.map (fun it => it.maHang))).filter
      (fun b => branchPass fp fb b.chiNhanh b.tinhThanh)).map
    (decorateA (coverItems.map (fun it => it.maHang)) coverItems)).mergeSort covLeA

/-- Variant A doCoverage (App.jsx lines 528-563): a no-op (none) when
the dataset or the demand table is empty; otherwise aggregate one pass
over the dataset, filter the branches, decorate and rank them. -/
def doCoverageA (activeRows : List Row) (coverItems : List ReqItem)
    (fp fb : String) : Option CovResultA :=
  if activeRows.isEmpty || coverItems.isEmpty then none
  else
    some { codes := coverItems.map (fun it => it.maHang)
           rows := coverageRowsA activeRows coverItems fp fb
           items := coverItems }

/-! ## Variant B lookup (doSearch, App.jsx lines 1267-1275) -/

/-- The value published by variant B doSearch (App.jsx line 1274). -/
structure SearchResultB where
  codes : List String
  map : List (String × List Row)
deriving Repr, DecidableEq

/-- Variant B doSearch (App.jsx lines 1267-1275): a no-op (none) when
the dataset is empty or the query is blank; otherwise the parsed codes
and, for each, the filtered records whose uppercased code matches. -/
def doSearchB (activeRows : List Row) (query : String) (fp fb : String) :
    Option SearchResultB :=
  if activeRows.isEmpty || (jsTrim query == "") then none
  else
    let codes := parseCodes query
    some { codes := codes
           map := codes.map (fun code => (code, lookupRowsA activeRows fp fb code)) }

/-! ## Variant B coverage (doCoverage, App.jsx lines 1278-1309) -/

/-- One branch entry of variant B (App.jsx line 1287): the set of
demanded codes some single row of the branch exceeds the global
minimum for, modelled as a list in insertion order. -/
structure BranchSetB where
  chiNhanh : String
  tinhThanh : String
  codeSet : List String
deriving Repr, DecidableEq

/-- The grouping key of a variant B branch entry. -/
def branchKeyB (b : BranchSetB) : String := b.chiNhanh ++ "||" ++ b.tinhThanh

/-- One step of the variant B scan (App.jsx lines 1285-1292): create
the branch entry when absent, then add the uppercased record code to
its set when the code is demanded and the row quantity is strictly
greater than the global minimum. -/
def coverStepB (codes : List String) (minQty : ℚ) (acc : List BranchSetB)
    (r : Row) : List BranchSetB :=
  let key := rowKey r
  let acc1 :=
    if acc.any (fun b => branchKeyB b == key) then acc
    else acc ++ [{ chiNhanh := r.chiNhanh, tinhThanh := r.tinhThanh, codeSet := [] }]
  let code := jsToUpper r.maHang
  if codes.contains code && decide (parseQty r.cuoiKy > minQty) then
    acc1.map (fun b =>
      if branchKeyB b == key then
        { b with codeSet := if b.codeSet.contains code then b.codeSet
                            else b.codeSet ++ [code] }
      else b)
  else acc1

/-- One ranked coverage row of variant B (App.jsx lines 1301-1305). -/
structure CovRowB where
  chiNhanh : String
  tinhThanh : String
  codeSet : List String
  hasAll : Bool
  count : Nat
  codes : List String
deriving Repr, DecidableEq

/-- The sort comparator of variant B doCoverage (App.jsx line 1306),
identical in shape to the variant A comparator. -/
def covLeB (a b : CovRowB) : Bool :=
  b.count < a.count || (b.count == a.count && lexLe a.chiNhanh.data b.chiNhanh.data)

/-- The value published by variant B doCoverage (App.jsx line 1308). -/
structure CovResultB where
  codes : List String
  rows : List CovRowB
deriving Repr, DecidableEq

/-- Decoration of one filtered variant B branch entry
(App.jsx lines 1301-1305). -/
def decorateB (codes : List String) (b : BranchSetB) : CovRowB :=
  { chiNhanh := b.chiNhanh
    tinhThanh := b.tinhThanh
    codeSet := b.codeSet
    hasAll := codes.all (fun c => b.codeSet.contains c)
    count := (codes.filter (fun c => b.codeSet.contains c)).length
    codes := codes }

/-- The ranked coverage rows of variant B (App.jsx lines 1285-1306). -/
def coverageRowsB (activeRows : List Row) (codes : List String) (minQty : ℚ)
    (fp fb : String) : List CovRowB :=
  (((activeRows.foldl (coverStepB codes minQty) []).filter (fun b =>
      branchPass fp fb b.chiNhanh b.tinhThanh)).map
    (decorateB codes)).mergeSort covLeB

/-- Variant B doCoverage (App.jsx lines 1278-1309): a no-op (none) when
the dataset is empty or the query is blank; otherwise parse the codes,
scan the dataset building per-branch code sets against the single
global minimum (strictly greater than), filter, decorate and rank.
The numeric conversion Number(coverageMinQty)||0 of line 1281 is
modelled by passing the converted value minQty directly. -/
def doCoverageB (activeRows : List Row) (coverageQuery : String) (minQty : ℚ)
    (fp fb : String) : Option CovResultB :=
  if activeRows.isEmpty || (jsTrim coverageQuery == "") then none
  else
    some { codes := parseCodes coverageQuery
           rows := coverageRowsB activeRows (parseCodes coverageQuery) minQty fp fb }

/-! ## Concrete sample data used by the witnesses and counterexamples -/

/-- Re-presenting a canonical record as a raw record whose keys are
the canonical field names, in field order. -/
def canonicalize (row : Row) : RawRecord :=
  [("maHang", row.maHang), ("tenHang", row.tenHang), ("chiNhanh", row.chiNhanh),
   ("tinhThanh", row.tinhThanh), ("maKho", row.maKho), ("dvt", row.dvt),
   ("cuoiKy", row.cuoiKy)]

/-- Sample record: item A1 at branch 01 / HN with 50 units. -/
def rowA1HN : Row :=
  { maHang := "A1", tenHang := "Widget", chiNhanh := "01", tinhThanh := "HN",
    maKho := "K1", dvt := "c", cuoiKy := "50" }

/-- Sample record: item A1 at branch 02 / HCM with 150 units. -/
def rowA1HCM : Row :=
  { maHang := "A1", tenHang := "Widget", chiNhanh := "02", tinhThanh := "HCM",
    maKho := "K1", dvt := "c", cuoiKy := "150" }

/-- Sample record: item B2 at branch 01 / HN with 20 units. -/
def rowB2HN : Row :=
  { maHang := "B2", tenHang := "Gadget", chiNhanh := "01", tinhThanh := "HN",
    maKho := "K2", dvt := "c", cuoiKy := "20" }

/-- Sample record: item B2 at branch 02 / HCM with 5 units. -/
def rowB2HCM : Row :=
  { maHang := "B2", tenHang := "Gadget", chiNhanh := "02", tinhThanh := "HCM",
    maKho := "K2", dvt := "c", cuoiKy := "5" }

/-- The sample dataset of the specification scenarios. -/
def sampleRows : List Row := [rowA1HN, rowA1HCM, rowB2HN, rowB2HCM]

/-- Sample demand line: A1 with threshold 100. -/
def itemA1 : ReqItem :=
  { maHang := "A1", tenHang := "Widget", dvt := "c", needQty := some 100 }

/-- Sample demand line: B2 with threshold 10. -/
def itemB2 : ReqItem :=
  { maHang := "B2", tenHang := "Gadget", dvt := "c", needQty := some 10 }

/-- The sample demand table of the specification scenarios. -/
def sampleItems : List ReqItem := [itemA1, itemB2]

/-- The winning branch of the ranking witness result. -/
def covRow02W : CovRowA :=
  { chiNhanh := "02", tinhThanh := "HCM", qtyMap := [("A1", 150)],
    codeStatus := [{ code := "A1", qty := 150, needed := 100, ok := true,
                     info := some itemA1 }],
    count := 1, hasAll := true }

/-- The losing branch of the ranking witness result. -/
def covRow01W : CovRowA :=
  { chiNhanh := "01", tinhThanh := "HN", qtyMap := [("A1", 50)],
    codeStatus := [{ code := "A1", qty := 50, needed := 100, ok := false,
                     info := some itemA1 }],
    count := 0, hasAll := false }

/-- The full coverage result of variant A on the two A1 records with
demand line A1 at threshold 100 and no filter. -/
def covResW : CovResultA :=
  { codes := ["A1"], rows := [covRow02W, covRow01W], items := [itemA1] }

/-- Collision record: branch id containing the separator of the
grouping key. -/
def rowCollide1 : Row :=
  { maHang := "X", tenHang := "P", chiNhanh := "a||b", tinhThanh := "c",
    maKho := "", dvt := "", cuoiKy := "1" }

/-- Collision record: a distinct branch pair with the same concatenated
grouping key as rowCollide1. -/
def rowCollide2 : Row :=
  { maHang := "X", tenHang := "P", chiNhanh := "a", tinhThanh := "b||c",
    maKho := "", dvt := "", cuoiKy := "2" }

/-- Demand line for the collision dataset. -/
def itemX : ReqItem :=
  { maHang := "X", tenHang := "P", dvt := "", needQty := none }

/-- Branch 01 as reported by variant B coverage under an empty parsed
code list: no demanded codes, so hasAll is vacuously true. -/
def covRowB01E : CovRowB :=
  { chiNhanh := "01", tinhThanh := "HN", codeSet := [], hasAll := true,
    count := 0, codes := [] }

/-- Branch 02 as reported by variant B coverage under an empty parsed
code list. -/
def covRowB02E : CovRowB :=
  { chiNhanh := "02", tinhThanh := "HCM", codeSet := [], hasAll := true,
    count := 0, codes := [] }

/-- A request item whose code is not upper-cased. -/
def itemLower : ReqItem :=
  { maHang := "a1", tenHang := "", dvt := "", needQty := none }

/-- Branch 01 as reported by variant A coverage when the demanded code
is lower case: the aggregate is zero. -/
def covRowLower01 : CovRowA :=
  { chiNhanh := "01", tinhThanh := "HN", qtyMap := [],
    codeStatus := [{ code := "a1", qty := 0, needed := 0, ok := true,
                     info := some itemLower }],
    count := 1, hasAll := true }

/-- Branch 02 as reported by variant A coverage when the demanded code
is lower case. -/
def covRowLower02 : CovRowA :=
  { chiNhanh := "02", tinhThanh := "HCM", qtyMap := [],
    codeStatus := [{ code := "a1", qty := 0, needed := 0, ok := true,
                     info := some itemLower }],
    count := 1, hasAll := true }

/-- The variant A coverage result on the sample dataset for the
lower-case demanded code. -/
def covResLower : CovResultA :=
  { codes := ["a1"], rows := [covRowLower01, covRowLower02],
    items := [itemLower] }

/-- The per-code total of the branch entry stored under a grouping key,
zero when the key or the code is absent; the reading function the
aggregation lemmas are stated through. -/
def branchLookup (acc : List BranchAgg) (key c : String) : ℚ :=
  match acc.find? (fun b => branchKey b == key) with
  | some b => lookupQ b.qtyMap c
  | none => 0

/-- The single merged branch produced from the two colliding records:
their quantities 1 and 2 are summed under the first-seen pair. -/
def covRowCollide : CovRowA :=
  { chiNhanh := "a||b", tinhThanh := "c", qtyMap := [("X", 3)],
    codeStatus := [{ code := "X", qty := 3, needed := 0, ok := true,
                     info := some itemX }],
    count := 1, hasAll := true }

/-- The variant A coverage result on the collision dataset. -/
def covResCollide : CovResultA :=
  { codes := ["X"], rows := [covRowCollide], items := [itemX] }

end Inventory

namespace Inventory

/-! # Theorems

## General helper lemmas -/

/-- Stripping non-numeric characters is filtering by the kept class. -/
theorem jsReplaceNonNum_eq_filter (l : List Char) :
    jsReplaceNonNum l = l.filter isNumChar := by
  induction l with
  | nil => rfl
  | cons c t ih =>
      by_cases h : isNumChar c = true
      · simp [jsReplaceNonNum, List.filter_cons, h, ih]
      · simp only [Bool.not_eq_true] at h
        simp [jsReplaceNonNum, List.filter_cons, h, ih]

/-- The left fold of rational addition starting from an accumulator is
the accumulator plus the sum of the mapped list. -/
theorem foldl_add_eq_sum (f : Row → ℚ) (a : ℚ) (rows : List Row) :
    rows.foldl (fun s r => s + f r) a = a + (rows.map f).sum := by
  induction rows generalizing a with
  | nil => simp
  | cons r t ih => simp [ih, add_assoc]

/-- A successful find? returns the first element satisfying the
predicate: its index, the failure of all earlier indices, and the
membership equation. -/
theorem find?_eq_some_first {α : Type} {p : α → Bool} {l : List α} {x : α}
    (h : l.find? p = some x) :
    ∃ i, ∃ hi : i < l.length, l.get ⟨i, hi⟩ = x ∧ p x = true ∧
      ∀ j, ∀ hj : j < l.length, j < i → p (l.get ⟨j, hj⟩) = false := by
  induction l with
  | nil => simp at h
  | cons a t ih =>
      rw [List.find?_cons] at h
      by_cases ha : p a = true
      · refine ⟨0, by simp, ?_, ?_, ?_⟩
        · simp only [ha] at h
          simpa using Option.some.inj h
        · simp only [ha] at h
          rw [← Option.some.inj h]; exact ha
        · intro j hj hj0; omega
      · simp only [Bool.not_eq_true] at ha
        simp only [ha] at h
        obtain ⟨i, hi, hget, hpx, hfirst⟩ := ih h
        refine ⟨i + 1, by simpa using Nat.succ_lt_succ hi, by simpa using hget,
          hpx, ?_⟩
        intro j hj hji
        cases j with
        | zero => simpa using ha
        | succ k =>
            have hk : k < t.length := by simpa using hj
            have := hfirst k hk (by omega)
            simpa using this

/-- find? on a list with pairwise distinct keys locates any member by
its own key. -/
theorem find?_key_of_mem {α : Type} (key : α → String) {l : List α} {b : α}
    (hmem : b ∈ l) (hnd : l.Pairwise (fun x y => key x ≠ key y)) :
    l.find? (fun y => key y == key b) = some b := by
  induction l with
  | nil => simp at hmem
  | cons a t ih =>
      rcases List.mem_cons.mp hmem with rfl | hb
      · simp [List.find?_cons]
      · have hne : key a ≠ key b := (List.pairwise_cons.mp hnd).1 b hb
        rw [List.find?_cons]
        have : (key a == key b) = false := by
          simpa using hne
        simp only [this]
        exact ih hb (List.pairwise_cons.mp hnd).2

/-! ## Trimming lemmas -/

/-- dropWhile is idempotent. -/
theorem dropWhile_dropWhile (p : Char → Bool) (l : List Char) :
    (l.dropWhile p).dropWhile p = l.dropWhile p := by
  cases h : l.dropWhile p with
  | nil => rfl
  | cons a t =>
      have hhead := List.head?_dropWhile_not p l
      rw [h] at hhead
      simp only [List.head?_cons] at hhead
      rw [List.dropWhile_cons, hhead]
      simp

/-- A list unchanged by dropWhile has a head failing the predicate (or
is empty). -/
theorem head_fails_of_dropWhile_eq {p : Char → Bool} {a : Char} {t : List Char}
    (h : (a :: t).dropWhile p = a :: t) : p a = false := by
  by_cases hp : p a = true
  · rw [List.dropWhile_cons, hp] at h
    have := congrArg List.length h
    have hle : (t.dropWhile p).length ≤ t.length := by
      have := List.IsSuffix.length_le (List.dropWhile_suffix (l := t) p)
      exact this
    simp at this
    omega
  · simpa using hp

/-- Trimming the right end of a left-trimmed list keeps it
left-trimmed. -/
theorem left_trimmed_after_right {p : Char → Bool} {l : List Char}
    (h : l.dropWhile p = l) :
    ((l.reverse.dropWhile p).reverse).dropWhile p = (l.reverse.dropWhile p).reverse := by
  obtain ⟨t, ht⟩ := List.dropWhile_suffix (l := l.reverse) p
  cases hx : (l.reverse.dropWhile p).reverse with
  | nil => rfl
  | cons a s =>
      have hpref : (a :: s) ++ t.reverse = l := by
        have h2 := congrArg List.reverse ht
        simp only [List.reverse_append, List.reverse_reverse] at h2
        rw [hx] at h2
        exact h2
      cases l with
      | nil => simp at hpref
      | cons b u =>
          have hab : a = b := by
            have := congrArg List.head? hpref
            simpa using this
          have hpb : p b = false := head_fails_of_dropWhile_eq h
          rw [List.dropWhile_cons, hab, hpb]
          simp

/-- jsTrimList is idempotent. -/
theorem jsTrimList_idem (l : List Char) :
    jsTrimList (jsTrimList l) = jsTrimList l := by
  unfold jsTrimList
  set y := l.dropWhile jsWhitespace with hy
  have hyy : y.dropWhile jsWhitespace = y := dropWhile_dropWhile jsWhitespace l
  set m := y.reverse.dropWhile jsWhitespace with hm
  have h1 : (m.reverse).dropWhile jsWhitespace = m.reverse :=
    left_trimmed_after_right hyy
  rw [h1]
  have h2 : (m.reverse).reverse.dropWhile jsWhitespace = m := by
    rw [List.reverse_reverse, hm, dropWhile_dropWhile]
  rw [h2]

/-- jsTrim is idempotent. -/
theorem jsTrim_idem (s : String) : jsTrim (jsTrim s) = jsTrim s := by
  simp [jsTrim, jsTrimList_idem]

/-! ## Upper-casing lemmas -/

/-- Character order is numeric order of code points. -/
theorem char_le_iff_toNat {a b : Char} : a ≤ b ↔ a.toNat ≤ b.toNat := by
  rw [Char.le_def, UInt32.le_def, BitVec.le_def]
  exact Iff.rfl

/-- The code point of the upper-cased lower-case letter. -/
theorem toNat_jsCharToUpper_of_lower {c : Char} (h : 'a' ≤ c ∧ c ≤ 'z') :
    (jsCharToUpper c).toNat = c.toNat - 32 := by
  have h1 : 97 ≤ c.toNat := char_le_iff_toNat.mp h.1
  have h2 : c.toNat ≤ 122 := char_le_iff_toNat.mp h.2
  have hv : (c.toNat - 32).isValidChar := by
    constructor
    omega
  rw [jsCharToUpper, if_pos h]
  rw [Char.ofNat, dif_pos hv]
  rfl

/-- ASCII upper-casing of one character is idempotent. -/
theorem jsCharToUpper_idem (c : Char) :
    jsCharToUpper (jsCharToUpper c) = jsCharToUpper c := by
  by_cases h : 'a' ≤ c ∧ c ≤ 'z'
  · have h1 : 97 ≤ c.toNat := char_le_iff_toNat.mp h.1
    have h2 : c.toNat ≤ 122 := char_le_iff_toNat.mp h.2
    have hup := toNat_jsCharToUpper_of_lower h
    have hnot : ¬('a' ≤ jsCharToUpper c ∧ jsCharToUpper c ≤ 'z') := by
      intro hcon
      have h97 : (97 : Nat) ≤ (jsCharToUpper c).toNat := char_le_iff_toNat.mp hcon.1
      rw [hup] at h97
      omega
    conv_lhs => rw [jsCharToUpper]
    rw [if_neg hnot]
  · have hc : jsCharToUpper c = c := by
      rw [jsCharToUpper, if_neg h]
    rw [hc]
    exact hc

/-- ASCII upper-casing of a string is idempotent. -/
theorem jsToUpper_idem (s : String) : jsToUpper (jsToUpper s) = jsToUpper s := by
  simp only [jsToUpper, List.map_map]
  congr 1
  apply List.map_congr_left
  intro c _
  exact jsCharToUpper_idem c

example : parseQty "1,234 kg" = 1234 := by decide
example : parseQty "abc" = 0 := by decide
example : parseQty "-12.5" = mkRat (-25) 2 := by decide
example : parseQty ".5" = mkRat 1 2 := by decide
example : parseQty "1-2" = 1 := by decide
example : parseQty "--3" = 0 := by decide
example : parseCodes " a1, b2;;A1\n" = ["A1", "B2"] := by decide
example : jsTrim "  xy z\t" = "xy z" := by decide
example : jsToUpper "aB1ỹ" = "AB1ỹ" := by decide
example :
    normRow [("Mã hàng", " A1 "), ("Tồn kho", "5")] =
      { maHang := "A1", tenHang := "", chiNhanh := "", tinhThanh := "",
        maKho := "", dvt := "", cuoiKy := "5" } := by decide

/-! ## C8 -/

/-- C8: parseQuantity strips every character that is not a digit, a dot
or a minus sign (the strip equals filtering by that class), then parses
the remainder as a floating-point number, yielding 0 whenever the parse
does not produce a valid number (the getD 0 on the optional parse); the
function is total by construction, so it never throws. -/
theorem c8_parseQty_strip_parse (s : String) :
    jsReplaceNonNum s.data = s.data.filter isNumChar ∧
    parseQty s = (jsParseFloat (s.data.filter isNumChar)).getD 0 := by
  refine ⟨jsReplaceNonNum_eq_filter s.data, ?_⟩
  unfold parseQty
  rw [jsReplaceNonNum_eq_filter]
  cases jsParseFloat (s.data.filter isNumChar) <;> rfl

/-! ## C6 -/

/-- C6: for every entry of a lookup result (variant A result map, and
variant B result map), the grand total displayed for a code is the sum
of parseQuantity over exactly the records returned for that code. -/
theorem c6_total_is_sum_over_returned
    (ds : List Row) (items : List ReqItem) (q fp fb : String) :
    (∀ kv ∈ lookupMapA ds items fp fb,
        displayedTotal kv.2.rows =
          (kv.2.rows.map (fun r => parseQty r.cuoiKy)).sum) ∧
    (∀ res, doSearchB ds q fp fb = some res →
        ∀ kv ∈ res.map,
          displayedTotal kv.2 = (kv.2.map (fun r => parseQty r.cuoiKy)).sum) := by
  constructor
  · intro kv _
    have := foldl_add_eq_sum (fun r => parseQty r.cuoiKy) 0 kv.2.rows
    simpa [displayedTotal] using this
  · intro res _ kv _
    have := foldl_add_eq_sum (fun r => parseQty r.cuoiKy) 0 kv.2
    simpa [displayedTotal] using this

/-- Witness for C6: the lookup entry for code A1 over the sample
dataset, whose displayed total is the sum over its two records. -/
theorem c6_total_is_sum_over_returned_witness :
    displayedTotal [rowA1HN, rowA1HCM] =
      (([rowA1HN, rowA1HCM]).map (fun r => parseQty r.cuoiKy)).sum :=
  (c6_total_is_sum_over_returned sampleRows sampleItems "A1" "" "").1
    ("A1", { rows := [rowA1HN, rowA1HCM], needQty := some 100,
             tenHang := "Widget", dvt := "c" })
    (by decide)

/-! ## C7 -/

/-- C7: normalization is total and order-preserving over the record
sequence (length preserved, elementwise image), resolves each of the 7
canonical fields independently through the get helper, and the get
helper returns the trimmed cell of the first key (in the given key
order) whose lower-cased form contains an alias substring, or the empty
string when no key matches. -/
theorem c7_normalize_first_match (rows : List RawRecord) (i : Nat)
    (r : RawRecord) (ps : List String) :
    (normalizeRows rows).length = rows.length ∧
    (normalizeRows rows)[i]? = (rows[i]?).map normRow ∧
    normRow r =
      { maHang := getField r maHangAliases
        tenHang := getField r tenHangAliases
        chiNhanh := getField r chiNhanhAliases
        tinhThanh := getField r tinhThanhAliases
        maKho := getField r maKhoAliases
        dvt := getField r dvtAliases
        cuoiKy := getField r cuoiKyAliases } ∧
    ((getField r ps = "" ∧ ∀ kv ∈ r, keyMatches ps kv.1 = false) ∨
      ∃ j, ∃ hj : j < r.length,
        keyMatches ps (r.get ⟨j, hj⟩).1 = true ∧
        (∀ k, ∀ hk : k < r.length, k < j →
          keyMatches ps (r.get ⟨k, hk⟩).1 = false) ∧
        getField r ps = jsTrim (r.get ⟨j, hj⟩).2) := by
  refine ⟨by simp [normalizeRows], by simp [normalizeRows], rfl, ?_⟩
  cases h : r.find? (fun kv => keyMatches ps kv.1) with
  | none =>
      left
      constructor
      · simp [getField, h]
      · intro kv hkv
        have := List.find?_eq_none.mp h kv hkv
        simpa using this
  | some kv =>
      right
      obtain ⟨j, hj, hget, hp, hfirst⟩ := find?_eq_some_first h
      refine ⟨j, hj, ?_, ?_, ?_⟩
      · rw [hget]
        simpa using hp
      · intro k hk hkj
        exact hfirst k hk hkj
      · rw [hget]
        simp [getField, h]

/-! ## C9 -/

/-- getField values are already trimmed, so trimming them again is the
identity. -/
theorem jsTrim_getField (r : RawRecord) (ps : List String) :
    jsTrim (getField r ps) = getField r ps := by
  cases h : r.find? (fun kv => keyMatches ps kv.1) with
  | none => simp [getField, h]; rfl
  | some kv => simp [getField, h, jsTrim_idem]

/-- Normalizing a canonically-keyed raw record resolves every field to
its own (trimmed) value: the canonical key list scans to the matching
canonical key for each of the 7 alias lists. -/
theorem normRow_canonicalize (row : Row) :
    normRow (canonicalize row) =
      { maHang := jsTrim row.maHang, tenHang := jsTrim row.tenHang,
        chiNhanh := jsTrim row.chiNhanh, tinhThanh := jsTrim row.tinhThanh,
        maKho := jsTrim row.maKho, dvt := jsTrim row.dvt,
        cuoiKy := jsTrim row.cuoiKy } := rfl

/-- C9: normalize is idempotent on already-canonical records: feeding
the normalized rows back through normalize, with the canonical field
names as the literal headers, reproduces the same field values. -/
theorem c9_normalize_idempotent_on_canonical (rows : List RawRecord) :
    normalizeRows ((normalizeRows rows).map canonicalize) = normalizeRows rows := by
  simp only [normalizeRows, List.map_map]
  apply List.map_congr_left
  intro r _
  show normRow (canonicalize (normRow r)) = normRow r
  rw [normRow_canonicalize]
  simp only [normRow, Row.mk.injEq]
  exact ⟨jsTrim_getField r maHangAliases, jsTrim_getField r tenHangAliases,
    jsTrim_getField r chiNhanhAliases, jsTrim_getField r tinhThanhAliases,
    jsTrim_getField r maKhoAliases, jsTrim_getField r dvtAliases,
    jsTrim_getField r cuoiKyAliases⟩

/-! ## Order lemmas for the ranking comparator -/

/-- Code points determine characters. -/
theorem char_toNat_injective {a b : Char} (h : a.toNat = b.toNat) : a = b := by
  have h2 := congrArg Char.ofNat h
  rwa [Char.ofNat_toNat, Char.ofNat_toNat] at h2

/-- lexLe is total. -/
theorem lexLe_total : ∀ x y : List Char, (lexLe x y || lexLe y x) = true := by
  intro x
  induction x with
  | nil => intro y; simp [lexLe]
  | cons a as ih =>
      intro y
      cases y with
      | nil => simp [lexLe]
      | cons b bs =>
          by_cases hab : a = b
          · subst hab
            simpa [lexLe] using ih bs
          · have hba : ¬b = a := fun h => hab h.symm
            have hne : a.toNat ≠ b.toNat := fun h => hab (char_toNat_injective h)
            simp [lexLe, hab, hba]
            omega

/-- lexLe is transitive. -/
theorem lexLe_trans :
    ∀ x y z : List Char, lexLe x y = true → lexLe y z = true →
      lexLe x z = true := by
  intro x
  induction x with
  | nil => intro y z _ _; simp [lexLe]
  | cons a as ih =>
      intro y z hxy hyz
      cases y with
      | nil => simp [lexLe] at hxy
      | cons b bs =>
          cases z with
          | nil => simp [lexLe] at hyz
          | cons c cs =>
              by_cases hab : a = b
              · subst hab
                by_cases hac : a = c
                · subst hac
                  simp only [lexLe, if_pos rfl] at hxy hyz ⊢
                  exact ih bs cs hxy hyz
                · simp only [lexLe, if_neg hac] at hyz ⊢
                  exact hyz
              · simp only [lexLe, if_neg hab, decide_eq_true_eq] at hxy
                by_cases hbc : b = c
                · subst hbc
                  simp only [lexLe, if_neg hab, decide_eq_true_eq]
                  exact hxy
                · simp only [lexLe, if_neg hbc, decide_eq_true_eq] at hyz
                  have hac : a ≠ c := by
                    intro h
                    subst h
                    omega
                  simp only [lexLe, if_neg hac, decide_eq_true_eq]
                  omega

/-- The variant A comparator is transitive. -/
theorem covLeA_trans (x y z : CovRowA) (h1 : covLeA x y = true)
    (h2 : covLeA y z = true) : covLeA x z = true := by
  simp only [covLeA, Bool.or_eq_true, Bool.and_eq_true, decide_eq_true_eq,
    beq_iff_eq] at h1 h2 ⊢
  rcases h1 with h1 | ⟨h1e, h1l⟩ <;> rcases h2 with h2 | ⟨h2e, h2l⟩
  · left; omega
  · left; omega
  · left; omega
  · right
    exact ⟨by omega, lexLe_trans _ _ _ h1l h2l⟩

/-- The variant A comparator is total. -/
theorem covLeA_total (x y : CovRowA) : (covLeA x y || covLeA y x) = true := by
  simp only [covLeA, Bool.or_eq_true, Bool.and_eq_true, decide_eq_true_eq,
    beq_iff_eq]
  rcases Nat.lt_trichotomy x.count y.count with h | h | h
  · right; left; exact h
  · have hlt : lexLe x.chiNhanh.data y.chiNhanh.data = true ∨
        lexLe y.chiNhanh.data x.chiNhanh.data = true := by
      simpa using lexLe_total x.chiNhanh.data y.chiNhanh.data
    rcases hlt with hl | hl
    · left; right; exact ⟨h.symm, hl⟩
    · right; right; exact ⟨h, hl⟩
  · left; left; exact h

/-- The variant B comparator is transitive. -/
theorem covLeB_trans (x y z : CovRowB) (h1 : covLeB x y = true)
    (h2 : covLeB y z = true) : covLeB x z = true := by
  simp only [covLeB, Bool.or_eq_true, Bool.and_eq_true, decide_eq_true_eq,
    beq_iff_eq] at h1 h2 ⊢
  rcases h1 with h1 | ⟨h1e, h1l⟩ <;> rcases h2 with h2 | ⟨h2e, h2l⟩
  · left; omega
  · left; omega
  · left; omega
  · right
    exact ⟨by omega, lexLe_trans _ _ _ h1l h2l⟩

/-- The variant B comparator is total. -/
theorem covLeB_total (x y : CovRowB) : (covLeB x y || covLeB y x) = true := by
  simp only [covLeB, Bool.or_eq_true, Bool.and_eq_true, decide_eq_true_eq,
    beq_iff_eq]
  rcases Nat.lt_trichotomy x.count y.count with h | h | h
  · right; left; exact h
  · have hlt : lexLe x.chiNhanh.data y.chiNhanh.data = true ∨
        lexLe y.chiNhanh.data x.chiNhanh.data = true := by
      simpa using lexLe_total x.chiNhanh.data y.chiNhanh.data
    rcases hlt with hl | hl
    · left; right; exact ⟨h.symm, hl⟩
    · right; right; exact ⟨h, hl⟩
  · left; left; exact h

/-- Indexed sortedness of a merge sort under a transitive and total
comparator. -/
theorem mergeSort_sorted_get {α : Type} (le : α → α → Bool)
    (htrans : ∀ a b c, le a b = true → le b c = true → le a c = true)
    (htotal : ∀ a b, (le a b || le b a) = true) (l : List α) (i j : Nat)
    (hi : i < (l.mergeSort le).length) (hj : j < (l.mergeSort le).length)
    (hij : i < j) :
    le ((l.mergeSort le).get ⟨i, hi⟩) ((l.mergeSort le).get ⟨j, hj⟩) = true := by
  have hp := List.sorted_mergeSort htrans htotal l
  exact List.pairwise_iff_get.mp hp ⟨i, hi⟩ ⟨j, hj⟩ hij

/-- The length of a filter equals the length of the list exactly when
every element passes. -/
theorem length_filter_eq_iff_all {α : Type} (p : α → Bool) (l : List α) :
    ((l.filter p).length = l.length) ↔ l.all p = true := by
  constructor
  · intro h
    have heq : l.filter p = l :=
      List.Sublist.eq_of_length (List.filter_sublist l) h
    rw [List.all_eq_true]
    exact fun a ha => List.filter_eq_self.mp heq a ha
  · intro h
    rw [List.filter_eq_self.mpr (List.all_eq_true.mp h)]

/-- Every decorated variant A row has count at most the number of
demand codes, and hasAll is the equality test of count against it. -/
theorem covRowA_shape {codes : List String} {items : List ReqItem}
    {row : CovRowA} {bs : List BranchAgg}
    (h : row ∈ bs.map (decorateA codes items)) :
    row.count ≤ codes.length ∧ row.hasAll = (row.count == codes.length) := by
  obtain ⟨b, _, rfl⟩ := List.mem_map.mp h
  refine ⟨?_, rfl⟩
  have h1 := List.length_filter_le (fun s => s.ok) (codeStatusOf codes items b)
  simpa [decorateA, codeStatusOf] using h1

/-- Every decorated variant B row has count at most the number of
demand codes, and hasAll holds exactly when count reaches it. -/
theorem covRowB_shape {codes : List String} {row : CovRowB}
    {bs : List BranchSetB} (h : row ∈ bs.map (decorateB codes)) :
    row.count ≤ codes.length ∧
      (row.hasAll = true ↔ row.count = codes.length) := by
  obtain ⟨b, _, rfl⟩ := List.mem_map.mp h
  refine ⟨List.length_filter_le _ codes, ?_⟩
  show codes.all (fun c => b.codeSet.contains c) = true ↔
    (codes.filter (fun c => b.codeSet.contains c)).length = codes.length
  exact (length_filter_eq_iff_all _ _).symm

/-! ## C3 -/

/-- Adjacent-index comparator facts for a ranked list of decorated
variant A rows. -/
theorem rankedA_aux (bs : List BranchAgg) (codes : List String)
    (items : List ReqItem) (i j : Nat)
    (hi : i < ((bs.map (decorateA codes items)).mergeSort covLeA).length)
    (hj : j < ((bs.map (decorateA codes items)).mergeSort covLeA).length)
    (hij : i < j) :
    (((bs.map (decorateA codes items)).mergeSort covLeA).get ⟨j, hj⟩).count ≤
      (((bs.map (decorateA codes items)).mergeSort covLeA).get ⟨i, hi⟩).count ∧
    ((((bs.map (decorateA codes items)).mergeSort covLeA).get ⟨i, hi⟩).count =
        (((bs.map (decorateA codes items)).mergeSort covLeA).get ⟨j, hj⟩).count →
      lexLe (((bs.map (decorateA codes items)).mergeSort covLeA).get
          ⟨i, hi⟩).chiNhanh.data
        (((bs.map (decorateA codes items)).mergeSort covLeA).get
          ⟨j, hj⟩).chiNhanh.data = true) ∧
    ((((bs.map (decorateA codes items)).mergeSort covLeA).get ⟨j, hj⟩).hasAll =
        true →
      (((bs.map (decorateA codes items)).mergeSort covLeA).get ⟨i, hi⟩).hasAll =
        true) := by
  have hle := mergeSort_sorted_get covLeA covLeA_trans covLeA_total
    (bs.map (decorateA codes items)) i j hi hj hij
  set ri := ((bs.map (decorateA codes items)).mergeSort covLeA).get ⟨i, hi⟩
    with hri
  set rj := ((bs.map (decorateA codes items)).mergeSort covLeA).get ⟨j, hj⟩
    with hrj
  have hmi : ri ∈ (bs.map (decorateA codes items)).mergeSort covLeA := by
    rw [hri]; exact List.get_mem _ _ _
  have hmj : rj ∈ (bs.map (decorateA codes items)).mergeSort covLeA := by
    rw [hrj]; exact List.get_mem _ _ _
  have hsi := covRowA_shape (List.mem_mergeSort.mp hmi)
  have hsj := covRowA_shape (List.mem_mergeSort.mp hmj)
  simp only [covLeA, Bool.or_eq_true, Bool.and_eq_true, decide_eq_true_eq,
    beq_iff_eq] at hle
  refine ⟨?_, ?_, ?_⟩
  · rcases hle with h | ⟨he, _⟩
    · omega
    · omega
  · intro hcnt
    rcases hle with h | ⟨_, hl⟩
    · omega
    · exact hl
  · intro hall
    have hj2 : rj.count = codes.length := by
      have h2 := hsj.2
      rw [hall] at h2
      exact (beq_iff_eq).mp h2.symm
    have hi2 : ri.count = codes.length := by
      have hle3 : rj.count ≤ ri.count := by
        rcases hle with h | ⟨he, _⟩
        · omega
        · omega
      have hib := hsi.1
      omega
    rw [hsi.2]
    exact beq_iff_eq.mpr hi2

/-- Adjacent-index comparator facts for a ranked list of decorated
variant B rows. -/
theorem rankedB_aux (bs : List BranchSetB) (codes : List String) (i j : Nat)
    (hi : i < ((bs.map (decorateB codes)).mergeSort covLeB).length)
    (hj : j < ((bs.map (decorateB codes)).mergeSort covLeB).length)
    (hij : i < j) :
    (((bs.map (decorateB codes)).mergeSort covLeB).get ⟨j, hj⟩).count ≤
      (((bs.map (decorateB codes)).mergeSort covLeB).get ⟨i, hi⟩).count ∧
    ((((bs.map (decorateB codes)).mergeSort covLeB).get ⟨i, hi⟩).count =
        (((bs.map (decorateB codes)).mergeSort covLeB).get ⟨j, hj⟩).count →
      lexLe (((bs.map (decorateB codes)).mergeSort covLeB).get
          ⟨i, hi⟩).chiNhanh.data
        (((bs.map (decorateB codes)).mergeSort covLeB).get
          ⟨j, hj⟩).chiNhanh.data = true) ∧
    ((((bs.map (decorateB codes)).mergeSort covLeB).get ⟨j, hj⟩).hasAll =
        true →
      (((bs.map (decorateB codes)).mergeSort covLeB).get ⟨i, hi⟩).hasAll =
        true) := by
  have hle := mergeSort_sorted_get covLeB covLeB_trans covLeB_total
    (bs.map (decorateB codes)) i j hi hj hij
  set ri := ((bs.map (decorateB codes)).mergeSort covLeB).get ⟨i, hi⟩ with hri
  set rj := ((bs.map (decorateB codes)).mergeSort covLeB).get ⟨j, hj⟩ with hrj
  have hmi : ri ∈ (bs.map (decorateB codes)).mergeSort covLeB := by
    rw [hri]; exact List.get_mem _ _ _
  have hmj : rj ∈ (bs.map (decorateB codes)).mergeSort covLeB := by
    rw [hrj]; exact List.get_mem _ _ _
  have hsi := covRowB_shape (List.mem_mergeSort.mp hmi)
  have hsj := covRowB_shape (List.mem_mergeSort.mp hmj)
  simp only [covLeB, Bool.or_eq_true, Bool.and_eq_true, decide_eq_true_eq,
    beq_iff_eq] at hle
  refine ⟨?_, ?_, ?_⟩
  · rcases hle with h | ⟨he, _⟩
    · omega
    · omega
  · intro hcnt
    rcases hle with h | ⟨_, hl⟩
    · omega
    · exact hl
  · intro hall
    have hj2 : rj.count = codes.length := hsj.2.mp hall
    have hi2 : ri.count = codes.length := by
      have hle3 : rj.count ≤ ri.count := by
        rcases hle with h | ⟨he, _⟩
        · omega
        · omega
      have hib := hsi.1
      omega
    exact hsi.2.mpr hi2

/-- Adjacent-index comparator facts for the ranked variant A rows. -/
theorem coverageRowsA_ranked (ds : List Row) (items : List ReqItem)
    (fp fb : String) (i j : Nat)
    (hi : i < (coverageRowsA ds items fp fb).length)
    (hj : j < (coverageRowsA ds items fp fb).length) (hij : i < j) :
    ((coverageRowsA ds items fp fb).get ⟨j, hj⟩).count ≤
      ((coverageRowsA ds items fp fb).get ⟨i, hi⟩).count ∧
    (((coverageRowsA ds items fp fb).get ⟨i, hi⟩).count =
        ((coverageRowsA ds items fp fb).get ⟨j, hj⟩).count →
      lexLe ((coverageRowsA ds items fp fb).get ⟨i, hi⟩).chiNhanh.data
        ((coverageRowsA ds items fp fb).get ⟨j, hj⟩).chiNhanh.data = true) ∧
    (((coverageRowsA ds items fp fb).get ⟨j, hj⟩).hasAll = true →
      ((coverageRowsA ds items fp fb).get ⟨i, hi⟩).hasAll = true) := by
  unfold coverageRowsA at hi hj ⊢
  exact rankedA_aux _ _ _ i j hi hj hij

/-- Adjacent-index comparator facts for the ranked variant B rows. -/
theorem coverageRowsB_ranked (ds : List Row) (codes : List String) (m : ℚ)
    (fp fb : String) (i j : Nat)
    (hi : i < (coverageRowsB ds codes m fp fb).length)
    (hj : j < (coverageRowsB ds codes m fp fb).length) (hij : i < j) :
    ((coverageRowsB ds codes m fp fb).get ⟨j, hj⟩).count ≤
      ((coverageRowsB ds codes m fp fb).get ⟨i, hi⟩).count ∧
    (((coverageRowsB ds codes m fp fb).get ⟨i, hi⟩).count =
        ((coverageRowsB ds codes m fp fb).get ⟨j, hj⟩).count →
      lexLe ((coverageRowsB ds codes m fp fb).get ⟨i, hi⟩).chiNhanh.data
        ((coverageRowsB ds codes m fp fb).get ⟨j, hj⟩).chiNhanh.data = true) ∧
    (((coverageRowsB ds codes m fp fb).get ⟨j, hj⟩).hasAll = true →
      ((coverageRowsB ds codes m fp fb).get ⟨i, hi⟩).hasAll = true) := by
  unfold coverageRowsB at hi hj ⊢
  exact rankedB_aux _ _ i j hi hj hij

/-- C3: coverage results of both variants are ranked by count
descending, ties on count broken by ascending branch id in the
(code-point) lexicographic order, and every fully-covering branch
(hasAll) ranks before every branch that is not, hasAll being the test
of count against the number of demanded codes. -/
theorem c3_ranking_sorted (ds : List Row) (items : List ReqItem) (q : String)
    (m : ℚ) (fp fb : String) :
    (∀ res, doCoverageA ds items fp fb = some res →
      ∀ i j, ∀ hi : i < res.rows.length, ∀ hj : j < res.rows.length, i < j →
        (res.rows.get ⟨j, hj⟩).count ≤ (res.rows.get ⟨i, hi⟩).count ∧
        ((res.rows.get ⟨i, hi⟩).count = (res.rows.get ⟨j, hj⟩).count →
          lexLe (res.rows.get ⟨i, hi⟩).chiNhanh.data
            (res.rows.get ⟨j, hj⟩).chiNhanh.data = true) ∧
        ((res.rows.get ⟨j, hj⟩).hasAll = true →
          (res.rows.get ⟨i, hi⟩).hasAll = true)) ∧
    (∀ res, doCoverageB ds q m fp fb = some res →
      ∀ i j, ∀ hi : i < res.rows.length, ∀ hj : j < res.rows.length, i < j →
        (res.rows.get ⟨j, hj⟩).count ≤ (res.rows.get ⟨i, hi⟩).count ∧
        ((res.rows.get ⟨i, hi⟩).count = (res.rows.get ⟨j, hj⟩).count →
          lexLe (res.rows.get ⟨i, hi⟩).chiNhanh.data
            (res.rows.get ⟨j, hj⟩).chiNhanh.data = true) ∧
        ((res.rows.get ⟨j, hj⟩).hasAll = true →
          (res.rows.get ⟨i, hi⟩).hasAll = true)) := by
  constructor
  · intro res hres i j hi hj hij
    unfold doCoverageA at hres
    by_cases hg : (ds.isEmpty || items.isEmpty) = true
    · rw [if_pos hg] at hres; cases hres
    · rw [if_neg hg] at hres
      obtain rfl : res = _ := (Option.some.inj hres).symm
      exact coverageRowsA_ranked ds items fp fb i j hi hj hij
  · intro res hres i j hi hj hij
    unfold doCoverageB at hres
    by_cases hg : (ds.isEmpty || (jsTrim q == "")) = true
    · rw [if_pos hg] at hres; cases hres
    · rw [if_neg hg] at hres
      obtain rfl : res = _ := (Option.some.inj hres).symm
      exact coverageRowsB_ranked ds (parseCodes q) m fp fb i j hi hj hij

unseal Rat.add in
/-- Evaluation of variant A coverage on the two A1 records: branch 02
(150 on hand, threshold 100) ranks before branch 01 (50 on hand).  The
merge sort is evaluated through its sortedness property, since the
accumulated branch list is already in ranked order for this dataset. -/
theorem covResW_eq :
    doCoverageA [rowA1HCM, rowA1HN] [itemA1] "" "" = some covResW := by
  unfold doCoverageA
  rw [if_neg (by decide)]
  have hrows : coverageRowsA [rowA1HCM, rowA1HN] [itemA1] "" "" =
      [covRow02W, covRow01W] := by
    unfold coverageRowsA
    have hL : ((branchMapA [rowA1HCM, rowA1HN]
          ([itemA1].map (fun it => it.maHang))).filter
        (fun b => branchPass "" "" b.chiNhanh b.tinhThanh)).map
          (decorateA ([itemA1].map (fun it => it.maHang)) [itemA1]) =
        [covRow02W, covRow01W] := by decide
    rw [hL]
    exact List.mergeSort_of_sorted (by decide)
  rw [hrows]
  decide

/-- Witness for C3: in the concrete ranked result, the branch at index
1 has count at most that of the branch at index 0. -/
theorem c3_ranking_sorted_witness :
    (covResW.rows.get ⟨1, by decide⟩).count ≤
      (covResW.rows.get ⟨0, by decide⟩).count :=
  ((c3_ranking_sorted [rowA1HCM, rowA1HN] [itemA1] "x" 0 "" "").1 covResW
    covResW_eq 0 1 (by decide) (by decide) (by decide)).1

/-! ## C4 -/

/-- Evaluation of variant B coverage on the sample dataset with a query
that is non-blank yet parses to zero codes: every branch of the dataset
is reported, each vacuously fully covering. -/
theorem covResBE_eq :
    doCoverageB sampleRows ",,," 0 "" "" =
      some { codes := [], rows := [covRowB01E, covRowB02E] } := by
  unfold doCoverageB
  rw [if_neg (by decide)]
  have hrows : coverageRowsB sampleRows (parseCodes ",,,") 0 "" "" =
      [covRowB01E, covRowB02E] := by
    unfold coverageRowsB
    have hL : ((sampleRows.foldl (coverStepB (parseCodes ",,,") 0) []).filter
        (fun b => branchPass "" "" b.chiNhanh b.tinhThanh)).map
          (decorateB (parseCodes ",,,")) = [covRowB01E, covRowB02E] := by decide
    rw [hL]
    exact List.mergeSort_of_sorted (by decide)
  rw [hrows]
  decide

/-- Counterexample for C4: with a four-record dataset, the per-item
matcher applied to an empty demand table publishes no result at all
(so no empty sequence is yielded), and the query variant applied to a
query parsing to zero codes yields a non-empty row sequence listing
every branch. -/
theorem c4_counterexample_empty_demand :
    (¬ ∃ res, doCoverageA sampleRows [] "" "" = some res ∧ res.rows = []) ∧
    (∃ res, doCoverageB sampleRows ",,," 0 "" "" = some res ∧
      res.codes = [] ∧ res.rows ≠ []) := by
  constructor
  · rintro ⟨res, hres, -⟩
    have hnone : doCoverageA sampleRows [] "" "" = none := by decide
    rw [hnone] at hres
    cases hres
  · exact ⟨_, covResBE_eq, by decide, by decide⟩

/-- C4 amended: applying the per-item coverage matcher to an empty
demand-line list yields no coverage result at all — the computation is
skipped and none is published, leaving the previous result in place —
rather than an empty result sequence; no error is raised. -/
theorem c4_empty_demand_skipped (ds : List Row) (fp fb : String)
    (items : List ReqItem) (h : items = []) :
    doCoverageA ds items fp fb = none := by
  subst h
  unfold doCoverageA
  rw [if_pos]
  simp [List.isEmpty]

/-- Witness for the amended C4 at the sample dataset. -/
theorem c4_empty_demand_skipped_witness :
    doCoverageA sampleRows [] "" "" = none :=
  c4_empty_demand_skipped sampleRows "" "" [] rfl

/-! ## C5 -/

/-- Membership in an object-insert result: every entry is an original
entry or the inserted pair. -/
theorem objInsert_mem {β : Type} {m : List (String × β)} {k : String} {v : β}
    {kv : String × β} (h : kv ∈ objInsert m k v) : kv ∈ m ∨ kv = (k, v) := by
  unfold objInsert at h
  by_cases hf : (m.find? (fun kv => kv.1 == k)).isSome = true
  · rw [if_pos hf] at h
    obtain ⟨kv0, hkv0, heq⟩ := List.mem_map.mp h
    by_cases he : (kv0.1 == k) = true
    · right
      rw [if_pos he] at heq
      exact heq.symm
    · left
      rw [if_neg he] at heq
      rw [← heq]
      exact hkv0
  · rw [if_neg hf] at h
    rcases List.mem_append.mp h with h2 | h2
    · left; exact h2
    · right; simpa using h2

/-- The inserted key is among the keys of an object-insert result. -/
theorem mem_keys_objInsert_self {β : Type} (m : List (String × β)) (k : String)
    (v : β) : k ∈ (objInsert m k v).map (fun kv => kv.1) := by
  unfold objInsert
  by_cases hf : (m.find? (fun kv => kv.1 == k)).isSome = true
  · rw [if_pos hf]
    obtain ⟨kv0, hfind⟩ := Option.isSome_iff_exists.mp hf
    have hkv0 : kv0 ∈ m := List.mem_of_find?_eq_some hfind
    have hpk := List.find?_some hfind
    exact List.mem_map.mpr
      ⟨(k, v), List.mem_map.mpr ⟨kv0, hkv0, by rw [if_pos hpk]⟩, rfl⟩
  · rw [if_neg hf, List.map_append]
    apply List.mem_append_right
    simp

/-- Object insertion keeps every existing key. -/
theorem mem_keys_objInsert_mono {β : Type} {m : List (String × β)}
    {k0 : String} (k : String) (v : β) (h : k0 ∈ m.map (fun kv => kv.1)) :
    k0 ∈ (objInsert m k v).map (fun kv => kv.1) := by
  unfold objInsert
  by_cases hf : (m.find? (fun kv => kv.1 == k)).isSome = true
  · rw [if_pos hf]
    obtain ⟨kv0, hkv0, hkey⟩ := List.mem_map.mp h
    by_cases he : (kv0.1 == k) = true
    · refine List.mem_map.mpr
        ⟨(k, v), List.mem_map.mpr ⟨kv0, hkv0, by rw [if_pos he]⟩, ?_⟩
      have h2 : kv0.1 = k := beq_iff_eq.mp he
      rw [← hkey, h2]
    · exact List.mem_map.mpr
        ⟨kv0, List.mem_map.mpr ⟨kv0, hkv0, by rw [if_neg he]⟩, hkey⟩
  · rw [if_neg hf, List.map_append]
    exact List.mem_append_left _ h

/-- Provenance of variant A lookup-map entries: every entry is the
entry of one of the request items. -/
theorem lookupMapA_mem_aux (ds : List Row) (fp fb : String) :
    ∀ (items : List ReqItem) (acc : List (String × LookupEntry))
      (kv : String × LookupEntry),
      kv ∈ items.foldl
        (fun m it => objInsert m it.maHang (lookupEntryA ds fp fb it)) acc →
      kv ∈ acc ∨ ∃ it ∈ items, kv = (it.maHang, lookupEntryA ds fp fb it) := by
  intro items
  induction items with
  | nil =>
      intro acc kv h
      left
      simpa using h
  | cons it t ih =>
      intro acc kv h
      rcases ih (objInsert acc it.maHang (lookupEntryA ds fp fb it)) kv h with
        h2 | ⟨it0, hit0, hkv⟩
      · rcases objInsert_mem h2 with h3 | h3
        · left; exact h3
        · right; exact ⟨it, List.mem_cons_self it t, h3⟩
      · right; exact ⟨it0, List.mem_cons_of_mem it hit0, hkv⟩

/-- Every request item key is present among the variant A lookup-map
keys. -/
theorem lookupMapA_keys_aux (ds : List Row) (fp fb : String) :
    ∀ (items : List ReqItem) (acc : List (String × LookupEntry)),
      (∀ k0, k0 ∈ acc.map (fun kv => kv.1) →
        k0 ∈ (items.foldl
          (fun m it => objInsert m it.maHang (lookupEntryA ds fp fb it))
            acc).map (fun kv => kv.1)) ∧
      (∀ it ∈ items, it.maHang ∈ (items.foldl
          (fun m it => objInsert m it.maHang (lookupEntryA ds fp fb it))
            acc).map (fun kv => kv.1)) := by
  intro items
  induction items with
  | nil =>
      intro acc
      exact ⟨fun k0 h => h, fun it h => absurd h (List.not_mem_nil it)⟩
  | cons it t ih =>
      intro acc
      constructor
      · intro k0 h0
        exact (ih (objInsert acc it.maHang (lookupEntryA ds fp fb it))).1 k0
          (mem_keys_objInsert_mono it.maHang (lookupEntryA ds fp fb it) h0)
      · intro it0 hit0
        rcases List.mem_cons.mp hit0 with rfl | hmem
        · exact (ih (objInsert acc it0.maHang (lookupEntryA ds fp fb it0))).1
            it0.maHang (mem_keys_objInsert_self acc it0.maHang _)
        · exact (ih (objInsert acc it.maHang (lookupEntryA ds fp fb it))).2
            it0 hmem

/-- Under the normalization preconditions, the rows looked up for a
code are exactly the specification subset. -/
theorem lookupRowsA_eq_spec (ds : List Row) (fp fb code : String)
    (hcode : jsToUpper (jsTrim code) = code)
    (htrim : ∀ r ∈ ds, jsTrim r.maHang = r.maHang) :
    lookupRowsA ds fp fb code = lookupRecordsSpec ds fp fb code := by
  unfold lookupRowsA filteredRows lookupRecordsSpec
  rw [List.filter_filter]
  apply List.filter_congr
  intro r hr
  rw [htrim r hr, hcode]
  simp only [passesFilter]
  cases fp == "" || r.tinhThanh == fp <;>
    cases fb == "" || r.chiNhanh == fb <;>
      cases jsToUpper r.maHang == code <;> rfl

/-- C5: for every dataset whose canonical codes are trimmed and every
request of normalized codes, each entry of the variant A lookup map
holds exactly the specification subset of records for its key (filter
by exact province/branch equality, match on the normalized code), and
every requested code owns an entry of the map. -/
theorem c5_lookup_records_exact_subset (ds : List Row) (items : List ReqItem)
    (fp fb : String)
    (hnorm : ∀ it ∈ items, jsToUpper (jsTrim it.maHang) = it.maHang)
    (htrim : ∀ r ∈ ds, jsTrim r.maHang = r.maHang) :
    (∀ kv ∈ lookupMapA ds items fp fb,
        kv.2.rows = lookupRecordsSpec ds fp fb kv.1) ∧
    (∀ it ∈ items,
        it.maHang ∈ (lookupMapA ds items fp fb).map (fun kv => kv.1)) := by
  constructor
  · intro kv hkv
    rcases lookupMapA_mem_aux ds fp fb items [] kv hkv with h | ⟨it, hit, rfl⟩
    · simp at h
    · exact lookupRowsA_eq_spec ds fp fb it.maHang (hnorm it hit) htrim
  · intro it hit
    exact (lookupMapA_keys_aux ds fp fb items []).2 it hit

/-- Witness for C5: the lookup entry for code A1 over the sample
dataset holds exactly the two A1 records, and both requested codes have
entries. -/
theorem c5_lookup_records_exact_subset_witness :
    ({ rows := [rowA1HN, rowA1HCM], needQty := some 100, tenHang := "Widget",
       dvt := "c" } : LookupEntry).rows =
      lookupRecordsSpec sampleRows "" "" "A1" :=
  (c5_lookup_records_exact_subset sampleRows sampleItems "" "" (by decide)
    (by decide)).1
    ("A1", { rows := [rowA1HN, rowA1HCM], needQty := some 100,
             tenHang := "Widget", dvt := "c" })
    (by decide)

/-! ## C10 -/

/-- Membership in an ensure-branch result: an original entry or the
fresh empty entry for the record. -/
theorem ensureBranch_mem {acc : List BranchAgg} {r : Row} {b : BranchAgg}
    (h : b ∈ ensureBranch acc r) :
    b ∈ acc ∨ b = newBranch r := by
  unfold ensureBranch at h
  by_cases ha : (acc.any (fun b => branchKey b == rowKey r)) = true
  · rw [if_pos ha] at h
    left; exact h
  · rw [if_neg ha] at h
    rcases List.mem_append.mp h with h2 | h2
    · left; exact h2
    · right; simpa using h2

/-- One coverage step preserves the invariant that every quantity-map
key is upper-case stable. -/
theorem coverStep_qtyMap_stable (codes : List String) (acc : List BranchAgg)
    (r : Row)
    (hacc : ∀ b ∈ acc, ∀ kv ∈ b.qtyMap, jsToUpper kv.1 = kv.1) :
    ∀ b ∈ coverStep codes acc r, ∀ kv ∈ b.qtyMap, jsToUpper kv.1 = kv.1 := by
  have hens : ∀ b ∈ ensureBranch acc r, ∀ kv ∈ b.qtyMap,
      jsToUpper kv.1 = kv.1 := by
    intro b hb kv hkv
    rcases ensureBranch_mem hb with h | rfl
    · exact hacc b h kv hkv
    · simp [newBranch] at hkv
  intro b hb kv hkv
  unfold coverStep at hb
  by_cases hc : (codes.contains (jsToUpper r.maHang)) = true
  · rw [if_pos hc] at hb
    obtain ⟨b0, hb0, rfl⟩ := List.mem_map.mp hb
    unfold updBranch at hkv
    by_cases hk : (branchKey b0 == rowKey r) = true
    · rw [if_pos hk] at hkv
      rcases objInsert_mem hkv with h2 | rfl
      · exact hens b0 hb0 kv h2
      · exact jsToUpper_idem r.maHang
    · rw [if_neg hk] at hkv
      exact hens b0 hb0 kv hkv
  · rw [if_neg hc] at hb
    exact hens b hb kv hkv

/-- Every quantity-map key of the accumulated branch map is the
upper-casing of a record code, hence upper-case stable. -/
theorem branchMapA_qtyMap_stable (ds : List Row) (codes : List String) :
    ∀ b ∈ branchMapA ds codes, ∀ kv ∈ b.qtyMap, jsToUpper kv.1 = kv.1 := by
  have aux : ∀ (l : List Row) (acc : List BranchAgg),
      (∀ b ∈ acc, ∀ kv ∈ b.qtyMap, jsToUpper kv.1 = kv.1) →
      ∀ b ∈ l.foldl (coverStep codes) acc, ∀ kv ∈ b.qtyMap,
        jsToUpper kv.1 = kv.1 := by
    intro l
    induction l with
    | nil => intro acc h; simpa using h
    | cons r t ih =>
        intro acc h
        exact ih (coverStep codes acc r) (coverStep_qtyMap_stable codes acc r h)
  exact aux ds [] (by simp)

/-- A quantity map whose keys are all upper-case stable yields zero for
a key that is not. -/
theorem lookupQ_eq_zero_of_stable {m : List (String × ℚ)} {c : String}
    (hkeys : ∀ kv ∈ m, jsToUpper kv.1 = kv.1) (hc : jsToUpper c ≠ c) :
    lookupQ m c = 0 := by
  unfold lookupQ
  cases hfind : m.find? (fun kv => kv.1 == c) with
  | none => rfl
  | some kv =>
      have hmem := List.mem_of_find?_eq_some hfind
      have hp := List.find?_some hfind
      have hkc : kv.1 = c := by simpa using hp
      have hst := hkeys kv hmem
      rw [hkc] at hst
      exact absurd hst hc

/-- Decomposition of a ranked variant A row: it decorates some
accumulated branch entry that passed the filter. -/
theorem coverageRowsA_mem {ds : List Row} {items : List ReqItem}
    {fp fb : String} {row : CovRowA} (h : row ∈ coverageRowsA ds items fp fb) :
    ∃ b, b ∈ branchMapA ds (items.map (fun it => it.maHang)) ∧
      branchPass fp fb b.chiNhanh b.tinhThanh = true ∧
      row = decorateA (items.map (fun it => it.maHang)) items b := by
  unfold coverageRowsA at h
  have h2 := List.mem_mergeSort.mp h
  obtain ⟨b, hb, rfl⟩ := List.mem_map.mp h2
  exact ⟨b, List.mem_of_mem_filter hb, (List.mem_filter.mp hb).2, rfl⟩

/-- C10: requested codes are matched case-sensitively against the
uppercased record code: for a requested code that differs from its own
upper-casing, the variant A lookup entry is empty and every variant A
coverage aggregate for that code is zero. -/
theorem c10_case_sensitive_codes (ds : List Row) (items : List ReqItem)
    (fp fb : String) (c : String) (hc : jsToUpper c ≠ c) :
    (∀ kv ∈ lookupMapA ds items fp fb, kv.1 = c → kv.2.rows = []) ∧
    (∀ res, doCoverageA ds items fp fb = some res →
      ∀ row ∈ res.rows, ∀ cs ∈ row.codeStatus, cs.code = c → cs.qty = 0) := by
  constructor
  · intro kv hkv hk
    rcases lookupMapA_mem_aux ds fp fb items [] kv hkv with h | ⟨it, hit, rfl⟩
    · simp at h
    · show lookupRowsA ds fp fb it.maHang = []
      have hk2 : it.maHang = c := hk
      rw [hk2]
      apply List.filter_eq_nil_iff.mpr
      intro r _
      intro hbeq
      have he : jsToUpper r.maHang = c := by simpa using hbeq
      have h2 := congrArg jsToUpper he
      rw [jsToUpper_idem] at h2
      rw [he] at h2
      exact hc h2.symm
  · intro res hres row hrow cs hcs hcode
    unfold doCoverageA at hres
    by_cases hg : (ds.isEmpty || items.isEmpty) = true
    · rw [if_pos hg] at hres; cases hres
    · rw [if_neg hg] at hres
      obtain rfl : res = _ := (Option.some.inj hres).symm
      obtain ⟨b, hb, _, rfl⟩ := coverageRowsA_mem hrow
      have hcs2 : cs ∈ codeStatusOf (items.map (fun it => it.maHang)) items b :=
        hcs
      obtain ⟨c0, _, rfl⟩ := List.mem_map.mp hcs2
      have hc0 : c0 = c := hcode
      subst hc0
      show lookupQ b.qtyMap c0 = 0
      exact lookupQ_eq_zero_of_stable
        (branchMapA_qtyMap_stable ds (items.map (fun it => it.maHang)) b hb) hc

unseal Rat.add in
/-- Evaluation of variant A coverage on the sample dataset for the
lower-case demanded code: both branches report a zero aggregate. -/
theorem covResLower_eq :
    doCoverageA sampleRows [itemLower] "" "" = some covResLower := by
  unfold doCoverageA
  rw [if_neg (by decide)]
  have hrows : coverageRowsA sampleRows [itemLower] "" "" =
      [covRowLower01, covRowLower02] := by
    unfold coverageRowsA
    have hL : ((branchMapA sampleRows
          ([itemLower].map (fun it => it.maHang))).filter
        (fun b => branchPass "" "" b.chiNhanh b.tinhThanh)).map
          (decorateA ([itemLower].map (fun it => it.maHang)) [itemLower]) =
        [covRowLower01, covRowLower02] := by decide
    rw [hL]
    exact List.mergeSort_of_sorted (by decide)
  rw [hrows]
  decide

/-- Witness for C10: with the lower-case request a1 over the sample
dataset, the lookup entry is empty and the branch 01 aggregate for a1
is zero. -/
theorem c10_case_sensitive_codes_witness :
    ({ rows := ([] : List Row), needQty := none, tenHang := "",
       dvt := "" } : LookupEntry).rows = [] ∧
    ({ code := "a1", qty := 0, needed := 0, ok := true,
       info := some itemLower } : CodeStatus).qty = 0 := by
  constructor
  · exact (c10_case_sensitive_codes sampleRows [itemLower] "" "" "a1"
      (by decide)).1
      ("a1", { rows := [], needQty := none, tenHang := "", dvt := "" })
      (by decide) rfl
  · exact (c10_case_sensitive_codes sampleRows [itemLower] "" "" "a1"
      (by decide)).2 covResLower covResLower_eq covRowLower01 (by decide)
      { code := "a1", qty := 0, needed := 0, ok := true,
        info := some itemLower } (by decide) rfl

/-! ## C2 -/

/-- With pairwise-distinct item codes, the threshold of a demanded code
is the (defaulted) minimum quantity of its unique demand line. -/
theorem thresholdOf_of_nodup {items : List ReqItem} {it : ReqItem}
    (huniq : (items.map (fun it => it.maHang)).Nodup) (hit : it ∈ items) :
    thresholdOf items it.maHang = it.needQty.getD 0 := by
  have hpw : items.Pairwise (fun x y => x.maHang ≠ y.maHang) :=
    List.pairwise_map.mp huniq
  have hpwr : items.reverse.Pairwise (fun x y => x.maHang ≠ y.maHang) := by
    rw [List.pairwise_reverse]
    exact hpw.imp (fun h => Ne.symm h)
  have hfind := find?_key_of_mem (fun it => it.maHang)
    (List.mem_reverse.mpr hit) hpwr
  unfold thresholdOf
  rw [hfind]
  show (match it.needQty with | some q => q | none => 0) = it.needQty.getD 0
  cases it.needQty <;> rfl

/-- C2: in the per-item coverage matcher, a demand line is counted as
satisfied for a branch exactly when the branch aggregate for its code
(zero when the code is absent from the branch map) is greater than or
equal to the per-item threshold of that line (defaulting to 0), and the
satisfied count is the number of such lines -- a non-strict comparison
against per-item thresholds, not a strict one against a global
minimum. -/
theorem c2_satisfied_iff_aggregate_ge_threshold (ds : List Row)
    (items : List ReqItem) (fp fb : String)
    (huniq : (items.map (fun it => it.maHang)).Nodup) :
    ∀ res, doCoverageA ds items fp fb = some res →
      ∀ row ∈ res.rows, ∀ cs ∈ row.codeStatus,
        (cs.ok = true ↔ cs.qty ≥ cs.needed) ∧
        (∀ it ∈ items, it.maHang = cs.code → cs.needed = it.needQty.getD 0) ∧
        (row.qtyMap.find? (fun kv => kv.1 == cs.code) = none → cs.qty = 0) ∧
        row.count = (row.codeStatus.filter (fun s => s.ok)).length := by
  intro res hres row hrow cs hcs
  unfold doCoverageA at hres
  by_cases hg : (ds.isEmpty || items.isEmpty) = true
  · rw [if_pos hg] at hres; cases hres
  · rw [if_neg hg] at hres
    obtain rfl : res = _ := (Option.some.inj hres).symm
    obtain ⟨b, hb, hpass, rfl⟩ := coverageRowsA_mem hrow
    have hcs2 : cs ∈ codeStatusOf (items.map (fun it => it.maHang)) items b :=
      hcs
    obtain ⟨c0, hc0, rfl⟩ := List.mem_map.mp hcs2
    refine ⟨?_, ?_, ?_, rfl⟩
    · show decide (lookupQ b.qtyMap c0 ≥ thresholdOf items c0) = true ↔
        lookupQ b.qtyMap c0 ≥ thresholdOf items c0
      exact ⟨of_decide_eq_true, decide_eq_true⟩
    · intro it hit hitc
      have hitc2 : it.maHang = c0 := hitc
      show thresholdOf items c0 = it.needQty.getD 0
      rw [← hitc2]
      exact thresholdOf_of_nodup huniq hit
    · intro hnone
      have hnone2 : b.qtyMap.find? (fun kv => kv.1 == c0) = none := hnone
      show lookupQ b.qtyMap c0 = 0
      unfold lookupQ
      rw [hnone2]

/-- Witness for C2: branch 01 of the concrete coverage result has
aggregate 50 against threshold 100, and its line is counted as
unsatisfied exactly because 50 is below 100. -/
theorem c2_satisfied_iff_aggregate_ge_threshold_witness :
    (({ code := "A1", qty := 50, needed := 100, ok := false,
        info := some itemA1 } : CodeStatus).ok = true ↔
      ({ code := "A1", qty := 50, needed := 100, ok := false,
         info := some itemA1 } : CodeStatus).qty ≥
        ({ code := "A1", qty := 50, needed := 100, ok := false,
           info := some itemA1 } : CodeStatus).needed) :=
  (c2_satisfied_iff_aggregate_ge_threshold [rowA1HCM, rowA1HN] [itemA1] "" ""
    (by decide) covResW covResW_eq covRow01W (by decide)
    { code := "A1", qty := 50, needed := 100, ok := false,
      info := some itemA1 } (by decide)).1

/-! ## C1 -/

/-- Updating the entry of a present key rewrites the first entry found
under that key to the stored pair. -/
theorem find?_map_upd_self (m : List (String × ℚ)) (code : String) (v : ℚ)
    (hf : (m.find? (fun kv => kv.1 == code)).isSome = true) :
    (m.map (fun kv => if kv.1 == code then (code, v) else kv)).find?
      (fun kv => kv.1 == code) = some (code, v) := by
  induction m with
  | nil => simp at hf
  | cons a t ih =>
      by_cases ha : (a.1 == code) = true
      · rw [List.map_cons, if_pos ha]
        exact List.find?_cons_of_pos _ (beq_self_eq_true code)
      · rw [List.map_cons, if_neg ha]
        rw [List.find?_cons_of_neg (p := fun kv : String × ℚ => kv.1 == code) _ ha]
        apply ih
        rw [List.find?_cons_of_neg (p := fun kv : String × ℚ => kv.1 == code) _ ha] at hf
        exact hf

/-- Updating the entry of one key leaves lookups of other keys
unchanged. -/
theorem find?_map_upd_other (m : List (String × ℚ)) (code : String) (v : ℚ)
    (c : String) (hne : c ≠ code) :
    (m.map (fun kv => if kv.1 == code then (code, v) else kv)).find?
      (fun kv => kv.1 == c) = m.find? (fun kv => kv.1 == c) := by
  induction m with
  | nil => rfl
  | cons a t ih =>
      by_cases ha : (a.1 == code) = true
      · have haeq : a.1 = code := beq_iff_eq.mp ha
        have hac : ¬(a.1 == c) = true := fun hx =>
          hne ((beq_iff_eq.mp hx).symm.trans haeq)
        have hcc : ¬(((code, v) : String × ℚ).1 == c) = true := fun hx =>
          hne (beq_iff_eq.mp hx).symm
        rw [List.map_cons, if_pos ha]
        rw [List.find?_cons_of_neg (p := fun kv : String × ℚ => kv.1 == c) _ hcc,
          List.find?_cons_of_neg (p := fun kv : String × ℚ => kv.1 == c) _ hac]
        exact ih
      · rw [List.map_cons, if_neg ha]
        by_cases hac : (a.1 == c) = true
        · rw [List.find?_cons_of_pos (p := fun kv : String × ℚ => kv.1 == c) _ hac,
            List.find?_cons_of_pos (p := fun kv : String × ℚ => kv.1 == c) _ hac]
        · rw [List.find?_cons_of_neg (p := fun kv : String × ℚ => kv.1 == c) _ hac,
            List.find?_cons_of_neg (p := fun kv : String × ℚ => kv.1 == c) _ hac]
          exact ih

/-- The or-zero lookup after one accumulation step: the stored total of
the updated code grows by the added quantity, all other codes are
unchanged. -/
theorem lookupQ_addQty (m : List (String × ℚ)) (code : String) (q : ℚ)
    (c : String) :
    lookupQ (addQty m code q) c = lookupQ m c + (if c = code then q else 0) := by
  unfold addQty objInsert
  by_cases hf : (m.find? (fun kv => kv.1 == code)).isSome = true
  · rw [if_pos hf]
    by_cases hc : c = code
    · subst hc
      unfold lookupQ
      rw [find?_map_upd_self m c _ hf]
      simp
    · unfold lookupQ
      rw [find?_map_upd_other m code _ c hc]
      simp [hc]
  · rw [if_neg hf]
    have hmn : m.find? (fun kv => kv.1 == code) = none := by
      cases hx : m.find? (fun kv => kv.1 == code) with
      | none => rfl
      | some kv => rw [hx] at hf; simp at hf
    by_cases hc : c = code
    · subst hc
      have h0 : lookupQ m c = 0 := by
        unfold lookupQ
        rw [hmn]
      rw [h0]
      unfold lookupQ
      rw [List.find?_append, hmn]
      rw [Option.none_or]
      rw [List.find?_cons_of_pos (p := fun kv : String × ℚ => kv.1 == c) _
        (beq_self_eq_true c)]
      simp
    · generalize lookupQ m code + q = v
      unfold lookupQ
      rw [List.find?_append]
      have hsing : List.find? (fun kv => kv.1 == c) [(code, v)] = none := by
        rw [List.find?_cons_of_neg]
        · rfl
        · intro hx
          exact hc (beq_iff_eq.mp hx).symm
      rw [hsing, Option.or_none]
      simp [hc]

/-- Finding a branch by key commutes with a key-preserving map. -/
theorem find?_map_branchKey (l : List BranchAgg) (f : BranchAgg → BranchAgg)
    (hf : ∀ b, branchKey (f b) = branchKey b) (key : String) :
    (l.map f).find? (fun b => branchKey b == key) =
      (l.find? (fun b => branchKey b == key)).map f := by
  induction l with
  | nil => rfl
  | cons a t ih =>
      by_cases ha : (branchKey a == key) = true
      · have h2 : (branchKey (f a) == key) = true := by rw [hf a]; exact ha
        rw [List.map_cons,
          List.find?_cons_of_pos (p := fun b => branchKey b == key) _ h2,
          List.find?_cons_of_pos (p := fun b => branchKey b == key) _ ha]
        rfl
      · have h2 : ¬(branchKey (f a) == key) = true := by rw [hf a]; exact ha
        rw [List.map_cons,
          List.find?_cons_of_neg (p := fun b => branchKey b == key) _ h2,
          List.find?_cons_of_neg (p := fun b => branchKey b == key) _ ha]
        exact ih

/-- Ensuring the branch entry of a record does not change any stored
per-code total. -/
theorem branchLookup_ensureBranch (acc : List BranchAgg) (r : Row)
    (key c : String) :
    branchLookup (ensureBranch acc r) key c = branchLookup acc key c := by
  unfold ensureBranch
  by_cases ha : (acc.any (fun b => branchKey b == rowKey r)) = true
  · rw [if_pos ha]
  · rw [if_neg ha]
    unfold branchLookup
    rw [List.find?_append]
    cases hx : acc.find? (fun b => branchKey b == key) with
    | some b => rfl
    | none =>
        rw [Option.none_or]
        by_cases hk : (branchKey (newBranch r) == key) = true
        · rw [List.find?_cons_of_pos (p := fun b => branchKey b == key) _ hk]
          simp [newBranch, lookupQ]
        · rw [List.find?_cons_of_neg (p := fun b => branchKey b == key) _ hk]
          rfl

/-- After ensuring, the grouping key of the record is present. -/
theorem ensureBranch_find_key (acc : List BranchAgg) (r : Row) :
    ∃ b, (ensureBranch acc r).find? (fun b => branchKey b == rowKey r) =
      some b := by
  unfold ensureBranch
  by_cases ha : (acc.any (fun b => branchKey b == rowKey r)) = true
  · rw [if_pos ha]
    obtain ⟨b, hb, hpb⟩ := List.any_eq_true.mp ha
    have hs : ((acc.find? (fun b => branchKey b == rowKey r)).isSome) = true := by
      rw [List.find?_isSome]
      exact ⟨b, hb, hpb⟩
    obtain ⟨b2, hb2⟩ := Option.isSome_iff_exists.mp hs
    exact ⟨b2, hb2⟩
  · rw [if_neg ha]
    rw [List.find?_append]
    have hnone : acc.find? (fun b => branchKey b == rowKey r) = none := by
      rw [List.find?_eq_none]
      intro x hx hpx
      exact ha (List.any_eq_true.mpr ⟨x, hx, hpx⟩)
    rw [hnone, Option.none_or]
    refine ⟨newBranch r, ?_⟩
    apply List.find?_cons_of_pos (p := fun b => branchKey b == rowKey r)
    exact beq_self_eq_true (rowKey r)

/-- The per-branch per-code running total after one scan step: the
branch keyed by the record gains the parsed quantity on the uppercased
record code exactly when that code is demanded; everything else is
unchanged. -/
theorem branchLookup_coverStep (codes : List String) (acc : List BranchAgg)
    (r : Row) (key c : String) (hc : codes.contains c = true) :
    branchLookup (coverStep codes acc r) key c =
      branchLookup acc key c +
        (if (rowKey r == key && (jsToUpper r.maHang == c)) = true
         then parseQty r.cuoiKy else 0) := by
  unfold coverStep
  by_cases hcont : (codes.contains (jsToUpper r.maHang)) = true
  · rw [if_pos hcont]
    have hupd : ∀ b, branchKey (updBranch r b) = branchKey b := by
      intro b
      unfold updBranch
      by_cases hbk : (branchKey b == rowKey r) = true
      · rw [if_pos hbk]
        rfl
      · rw [if_neg hbk]
    unfold branchLookup
    rw [find?_map_branchKey _ _ hupd]
    cases hfind : (ensureBranch acc r).find? (fun b => branchKey b == key) with
    | none =>
        have hacc0 : branchLookup acc key c = 0 := by
          rw [← branchLookup_ensureBranch acc r key c]
          unfold branchLookup
          rw [hfind]
        by_cases hrk : (rowKey r == key) = true
        · exfalso
          obtain ⟨b2, hb2⟩ := ensureBranch_find_key acc r
          have hkeq : rowKey r = key := beq_iff_eq.mp hrk
          rw [hkeq] at hb2
          rw [hfind] at hb2
          cases hb2
        · have hrkf : (rowKey r == key) = false := by simpa using hrk
          show (0 : ℚ) = branchLookup acc key c + _
          rw [hacc0, hrkf]
          simp
    | some b0 =>
        have hbk : branchKey b0 = key := by
          simpa using List.find?_some hfind
        have hacc : branchLookup acc key c = lookupQ b0.qtyMap c := by
          rw [← branchLookup_ensureBranch acc r key c]
          unfold branchLookup
          rw [hfind]
        show lookupQ (updBranch r b0).qtyMap c = _
        unfold updBranch
        by_cases hbr : (branchKey b0 == rowKey r) = true
        · rw [if_pos hbr]
          show lookupQ (addQty b0.qtyMap (jsToUpper r.maHang)
              (parseQty r.cuoiKy)) c =
            branchLookup acc key c +
              (if (rowKey r == key && (jsToUpper r.maHang == c)) = true
               then parseQty r.cuoiKy else 0)
          rw [lookupQ_addQty, hacc]
          congr 1
          have hkr : rowKey r = key := by
            rw [← hbk]
            exact (beq_iff_eq.mp hbr).symm
          have hrkt : (rowKey r == key) = true := beq_iff_eq.mpr hkr
          by_cases hcu : c = jsToUpper r.maHang
          · have hut : (jsToUpper r.maHang == c) = true :=
              beq_iff_eq.mpr hcu.symm
            rw [if_pos hcu, hrkt, hut]
            simp
          · have huf : (jsToUpper r.maHang == c) = false :=
              beq_eq_false_iff_ne.mpr (fun h => hcu h.symm)
            rw [if_neg hcu, hrkt, huf]
            simp
        · rw [if_neg hbr]
          show lookupQ b0.qtyMap c =
            branchLookup acc key c +
              (if (rowKey r == key && (jsToUpper r.maHang == c)) = true
               then parseQty r.cuoiKy else 0)
          rw [hacc]
          have hne2 : (rowKey r == key) = false := by
            apply beq_eq_false_iff_ne.mpr
            intro h
            apply hbr
            apply beq_iff_eq.mpr
            rw [hbk, h]
          rw [hne2]
          simp
  · rw [if_neg hcont]
    rw [branchLookup_ensureBranch]
    have huf : (jsToUpper r.maHang == c) = false := by
      by_cases hx : (jsToUpper r.maHang == c) = true
      · exfalso
        have h2 := beq_iff_eq.mp hx
        rw [h2] at hcont
        exact hcont hc
      · simpa using hx
    rw [huf]
    simp

/-- The per-branch per-code running total of the whole scan is the sum
of the parsed quantities of the records with that grouping key and that
uppercased code. -/
theorem branchLookup_foldl (codes : List String) (c : String)
    (hc : codes.contains c = true) :
    ∀ (l : List Row) (acc : List BranchAgg) (key : String),
      branchLookup (l.foldl (coverStep codes) acc) key c =
        branchLookup acc key c +
          ((l.filter (fun r => rowKey r == key && (jsToUpper r.maHang == c))).map
            (fun r => parseQty r.cuoiKy)).sum := by
  intro l
  induction l with
  | nil => intro acc key; simp
  | cons r t ih =>
      intro acc key
      show branchLookup (t.foldl (coverStep codes) (coverStep codes acc r))
        key c = _
      rw [ih, branchLookup_coverStep codes acc r key c hc]
      by_cases hp : (rowKey r == key && (jsToUpper r.maHang == c)) = true
      · rw [if_pos hp]
        simp [List.filter_cons, hp, add_assoc]
      · have hpf : (rowKey r == key && (jsToUpper r.maHang == c)) = false := by
          simpa using hp
        rw [if_neg hp]
        simp [List.filter_cons, hpf]

/-- The in-place update preserves the grouping key. -/
theorem updBranch_key (r : Row) (b : BranchAgg) :
    branchKey (updBranch r b) = branchKey b := by
  unfold updBranch
  by_cases hbk : (branchKey b == rowKey r) = true
  · rw [if_pos hbk]
    rfl
  · rw [if_neg hbk]

/-- One coverage step keeps the grouping keys pairwise distinct. -/
theorem coverStep_keys_pairwise (codes : List String) (acc : List BranchAgg)
    (r : Row) (h : acc.Pairwise (fun x y => branchKey x ≠ branchKey y)) :
    (coverStep codes acc r).Pairwise (fun x y => branchKey x ≠ branchKey y) := by
  have hens : (ensureBranch acc r).Pairwise
      (fun x y => branchKey x ≠ branchKey y) := by
    unfold ensureBranch
    by_cases ha : (acc.any (fun b => branchKey b == rowKey r)) = true
    · rw [if_pos ha]
      exact h
    · rw [if_neg ha]
      rw [List.pairwise_append]
      refine ⟨h, List.pairwise_singleton _ _, ?_⟩
      intro x hx b hb
      rcases List.mem_singleton.mp hb with rfl
      intro heq
      apply ha
      apply List.any_eq_true.mpr
      exact ⟨x, hx, beq_iff_eq.mpr heq⟩
  unfold coverStep
  by_cases hcont : (codes.contains (jsToUpper r.maHang)) = true
  · rw [if_pos hcont]
    apply List.pairwise_map.mpr
    apply hens.imp
    intro a b h2
    rw [updBranch_key, updBranch_key]
    exact h2
  · rw [if_neg hcont]
    exact hens

/-- The grouping keys of the accumulated branch map are pairwise
distinct. -/
theorem branchMapA_keys_pairwise (ds : List Row) (codes : List String) :
    (branchMapA ds codes).Pairwise (fun x y => branchKey x ≠ branchKey y) := by
  have aux : ∀ (l : List Row) (acc : List BranchAgg),
      acc.Pairwise (fun x y => branchKey x ≠ branchKey y) →
      (l.foldl (coverStep codes) acc).Pairwise
        (fun x y => branchKey x ≠ branchKey y) := by
    intro l
    induction l with
    | nil => intro acc h; simpa using h
    | cons r t ih =>
        intro acc h
        exact ih _ (coverStep_keys_pairwise codes acc r h)
  exact aux ds [] (by simp)

/-- One coverage step only carries branch pairs of the accumulator or
of the stepped record. -/
theorem coverStep_pair_prov (codes : List String) (acc : List BranchAgg)
    (r : Row) :
    ∀ b ∈ coverStep codes acc r,
      (∃ b0 ∈ acc, b0.chiNhanh = b.chiNhanh ∧ b0.tinhThanh = b.tinhThanh) ∨
      (r.chiNhanh = b.chiNhanh ∧ r.tinhThanh = b.tinhThanh) := by
  intro b hb
  have hens : ∀ b1 ∈ ensureBranch acc r,
      (∃ b0 ∈ acc, b0.chiNhanh = b1.chiNhanh ∧ b0.tinhThanh = b1.tinhThanh) ∨
      (r.chiNhanh = b1.chiNhanh ∧ r.tinhThanh = b1.tinhThanh) := by
    intro b1 hb1
    rcases ensureBranch_mem hb1 with h | rfl
    · exact Or.inl ⟨b1, h, rfl, rfl⟩
    · exact Or.inr ⟨rfl, rfl⟩
  unfold coverStep at hb
  by_cases hcont : (codes.contains (jsToUpper r.maHang)) = true
  · rw [if_pos hcont] at hb
    obtain ⟨b1, hb1, rfl⟩ := List.mem_map.mp hb
    have hch : (updBranch r b1).chiNhanh = b1.chiNhanh := by
      unfold updBranch
      by_cases hk : (branchKey b1 == rowKey r) = true
      · rw [if_pos hk]
      · rw [if_neg hk]
    have hth : (updBranch r b1).tinhThanh = b1.tinhThanh := by
      unfold updBranch
      by_cases hk : (branchKey b1 == rowKey r) = true
      · rw [if_pos hk]
      · rw [if_neg hk]
    rcases hens b1 hb1 with ⟨b0, hb0, h1, h2⟩ | ⟨h1, h2⟩
    · refine Or.inl ⟨b0, hb0, ?_, ?_⟩
      · rw [hch]; exact h1
      · rw [hth]; exact h2
    · refine Or.inr ⟨?_, ?_⟩
      · rw [hch]; exact h1
      · rw [hth]; exact h2
  · rw [if_neg hcont] at hb
    exact hens b hb

/-- Every accumulated branch carries the branch pair of some record of
the dataset. -/
theorem branchMapA_pair_prov (ds : List Row) (codes : List String) :
    ∀ b ∈ branchMapA ds codes,
      ∃ r0 ∈ ds, r0.chiNhanh = b.chiNhanh ∧ r0.tinhThanh = b.tinhThanh := by
  have aux : ∀ (l : List Row) (acc : List BranchAgg),
      ∀ b ∈ l.foldl (coverStep codes) acc,
        (∃ b0 ∈ acc, b0.chiNhanh = b.chiNhanh ∧ b0.tinhThanh = b.tinhThanh) ∨
        ∃ r0 ∈ l, r0.chiNhanh = b.chiNhanh ∧ r0.tinhThanh = b.tinhThanh := by
    intro l
    induction l with
    | nil =>
        intro acc b hb
        exact Or.inl ⟨b, by simpa using hb, rfl, rfl⟩
    | cons r t ih =>
        intro acc b hb
        rcases ih (coverStep codes acc r) b hb with
          ⟨b0, hb0, h1, h2⟩ | ⟨r0, hr0, h1, h2⟩
        · rcases coverStep_pair_prov codes acc r b0 hb0 with
            ⟨b00, hb00, g1, g2⟩ | ⟨g1, g2⟩
          · exact Or.inl ⟨b00, hb00, g1.trans h1, g2.trans h2⟩
          · exact Or.inr ⟨r, List.mem_cons_self r t, g1.trans h1, g2.trans h2⟩
        · exact Or.inr ⟨r0, List.mem_cons_of_mem r hr0, h1, h2⟩
  intro b hb
  rcases aux ds [] b hb with ⟨b0, hb0, _, _⟩ | h
  · simp at hb0
  · exact h

/-- Reading the accumulator at the key of a stored branch yields that
branch, when keys are pairwise distinct. -/
theorem branchLookup_self {acc : List BranchAgg} {b : BranchAgg}
    (hmem : b ∈ acc)
    (hnd : acc.Pairwise (fun x y => branchKey x ≠ branchKey y)) (c : String) :
    branchLookup acc (branchKey b) c = lookupQ b.qtyMap c := by
  unfold branchLookup
  rw [find?_key_of_mem branchKey hmem hnd]

/-- C1 (amended): on every dataset whose concatenated grouping key
determines the branch pair, the reported aggregate of each branch and
each demanded code is the sum of the parsed quantities of the records
carrying that branch pair and that uppercased code, the filter applied
to records as exact province/branch equality; quantities of multiple
warehouse rows are summed, not maxed. -/
theorem c1_coverage_aggregate_filtered_sum (ds : List Row)
    (items : List ReqItem) (fp fb : String)
    (hinj : ∀ r1 ∈ ds, ∀ r2 ∈ ds, rowKey r1 = rowKey r2 →
      r1.chiNhanh = r2.chiNhanh ∧ r1.tinhThanh = r2.tinhThanh) :
    ∀ res, doCoverageA ds items fp fb = some res →
      ∀ row ∈ res.rows, ∀ cs ∈ row.codeStatus,
        cs.qty = ((ds.filter (fun r =>
            passesFilter fp fb r &&
            (r.chiNhanh == row.chiNhanh && r.tinhThanh == row.tinhThanh) &&
            (jsToUpper r.maHang == cs.code))).map
          (fun r => parseQty r.cuoiKy)).sum := by
  intro res hres row hrow cs hcs
  unfold doCoverageA at hres
  by_cases hg : (ds.isEmpty || items.isEmpty) = true
  · rw [if_pos hg] at hres; cases hres
  · rw [if_neg hg] at hres
    obtain rfl : res = _ := (Option.some.inj hres).symm
    obtain ⟨b, hb, hpass, rfl⟩ := coverageRowsA_mem hrow
    have hcs2 : cs ∈ codeStatusOf (items.map (fun it => it.maHang)) items b :=
      hcs
    obtain ⟨c0, hc0, rfl⟩ := List.mem_map.mp hcs2
    show lookupQ b.qtyMap c0 = ((ds.filter (fun r =>
        passesFilter fp fb r &&
        (r.chiNhanh == b.chiNhanh && r.tinhThanh == b.tinhThanh) &&
        (jsToUpper r.maHang == c0))).map (fun r => parseQty r.cuoiKy)).sum
    have hcont : (items.map (fun it => it.maHang)).contains c0 = true :=
      List.elem_eq_true_of_mem hc0
    have hfold2 := branchLookup_foldl (items.map (fun it => it.maHang)) c0
      hcont ds ([] : List BranchAgg) (branchKey b)
    have hself : branchLookup (branchMapA ds (items.map (fun it => it.maHang)))
        (branchKey b) c0 = lookupQ b.qtyMap c0 :=
      branchLookup_self hb (branchMapA_keys_pairwise ds _) c0
    unfold branchMapA at hself
    rw [hself] at hfold2
    have h0 : branchLookup ([] : List BranchAgg) (branchKey b) c0 = 0 := rfl
    rw [h0, zero_add] at hfold2
    rw [hfold2]
    have hfeq : ds.filter (fun r =>
        rowKey r == branchKey b && (jsToUpper r.maHang == c0)) =
        ds.filter (fun r =>
          passesFilter fp fb r &&
          (r.chiNhanh == b.chiNhanh && r.tinhThanh == b.tinhThanh) &&
          (jsToUpper r.maHang == c0)) := by
      apply List.filter_congr
      intro r hr
      obtain ⟨r0, hr0, hp1, hp2⟩ :=
        branchMapA_pair_prov ds (items.map (fun it => it.maHang)) b hb
      have hbk0 : branchKey b = rowKey r0 := by
        unfold branchKey rowKey
        rw [hp1, hp2]
      by_cases hpair : r.chiNhanh = b.chiNhanh ∧ r.tinhThanh = b.tinhThanh
      · have hkey : rowKey r = branchKey b := by
          unfold rowKey branchKey
          rw [hpair.1, hpair.2]
        have hpf : passesFilter fp fb r = true := by
          unfold passesFilter
          unfold branchPass at hpass
          rw [hpair.1, hpair.2]
          exact hpass
        rw [beq_iff_eq.mpr hkey, hpf, beq_iff_eq.mpr hpair.1,
          beq_iff_eq.mpr hpair.2]
        simp
      · have hkeyf : (rowKey r == branchKey b) = false := by
          apply beq_eq_false_iff_ne.mpr
          intro hk
          apply hpair
          rw [hbk0] at hk
          have hii := hinj r hr r0 hr0 hk
          exact ⟨hii.1.trans hp1, hii.2.trans hp2⟩
        have hpairf : (r.chiNhanh == b.chiNhanh && r.tinhThanh == b.tinhThanh) =
            false := by
          cases hx : (r.chiNhanh == b.chiNhanh) with
          | false => rfl
          | true =>
              cases hy : (r.tinhThanh == b.tinhThanh) with
              | false => rfl
              | true =>
                  exfalso
                  exact hpair ⟨beq_iff_eq.mp hx, beq_iff_eq.mp hy⟩
        rw [hkeyf, hpairf]
        simp
    rw [hfeq]

/-- Witness for the amended C1: in the concrete coverage result, the
branch 01 aggregate for A1 equals the sum over the records of branch
01 with code A1. -/
theorem c1_coverage_aggregate_filtered_sum_witness :
    ({ code := "A1", qty := 50, needed := 100, ok := false,
       info := some itemA1 } : CodeStatus).qty =
      (([rowA1HCM, rowA1HN].filter (fun r =>
          passesFilter "" "" r &&
          (r.chiNhanh == covRow01W.chiNhanh &&
            r.tinhThanh == covRow01W.tinhThanh) &&
          (jsToUpper r.maHang ==
            ({ code := "A1", qty := 50, needed := 100, ok := false,
               info := some itemA1 } : CodeStatus).code))).map
        (fun r => parseQty r.cuoiKy)).sum :=
  c1_coverage_aggregate_filtered_sum [rowA1HCM, rowA1HN] [itemA1] "" ""
    (by decide) covResW covResW_eq covRow01W (by decide)
    { code := "A1", qty := 50, needed := 100, ok := false,
      info := some itemA1 } (by decide)

unseal Rat.add in
/-- Evaluation of variant A coverage on the collision dataset: the two
records with distinct branch pairs but equal concatenated keys merge
into one branch whose aggregate sums both quantities. -/
theorem covResCollide_eq :
    doCoverageA [rowCollide1, rowCollide2] [itemX] "" "" =
      some covResCollide := by
  unfold doCoverageA
  rw [if_neg (by decide)]
  have hrows : coverageRowsA [rowCollide1, rowCollide2] [itemX] "" "" =
      [covRowCollide] := by
    unfold coverageRowsA
    have hL : ((branchMapA [rowCollide1, rowCollide2]
          ([itemX].map (fun it => it.maHang))).filter
        (fun b => branchPass "" "" b.chiNhanh b.tinhThanh)).map
          (decorateA ([itemX].map (fun it => it.maHang)) [itemX]) =
        [covRowCollide] := by decide
    rw [hL]
    exact List.mergeSort_singleton covRowCollide
  rw [hrows]
  decide

unseal Rat.add in
/-- Counterexample for C1: on the dataset whose two records have
distinct branch pairs with the same concatenated grouping key, the
single reported branch carries aggregate 3, while the sum of
parseQuantity over the records with that branch pair (after the
filter) is 1. -/
theorem c1_counterexample_concat_key_collision :
    ∃ res, doCoverageA [rowCollide1, rowCollide2] [itemX] "" "" = some res ∧
      ∃ row ∈ res.rows, ∃ cs ∈ row.codeStatus,
        cs.qty ≠ (([rowCollide1, rowCollide2].filter (fun r =>
            passesFilter "" "" r &&
            (r.chiNhanh == row.chiNhanh && r.tinhThanh == row.tinhThanh) &&
            (jsToUpper r.maHang == cs.code))).map
          (fun r => parseQty r.cuoiKy)).sum := by
  refine ⟨covResCollide, covResCollide_eq, covRowCollide, by decide, ?_⟩
  refine ⟨{ code := "X", qty := 3, needed := 0, ok := true,
            info := some itemX }, by decide, ?_⟩
  decide

end Inventory
